import Mathlib

/-!
Verification development for the HashGraph engine (`src/hash_graph.cpp`):
a mutable bidirected sequence graph with named paths and a derived
occurrence index, together with its binary persistence format.

The embedding below is a direct shallow translation of the C++ source.
Hash containers (`hash_map`, `unordered_map`-style) are modelled as
insertion-ordered association lists: `operator[]` default-constructs an
absent entry, updates replace in place, and iteration follows the
container's own (insertion) order, which — like the real hash order — is
not sorted by key.  `path_mapping_t*` pointers are modelled as stable
natural-number uids drawn from a freshness counter threaded through the
state.  Machine integers are modelled as `Int`/`Nat` with explicit
wrap-around (`sub64`) exactly where the C++ arithmetic can overflow.
-/

namespace vg

/-- Modelled from the spec: the Handle Codec (`handlegraph::number_bool_packing`,
not part of this repository's sources) packs a node identifier and an
orientation bit into one opaque integer and back; the packing is a bijection,
so the unpacked pair is carried directly. -/
structure handle_t where
  id : Int
  rev : Bool
deriving DecidableEq, Repr, Inhabited

/-- Toggle the orientation bit (`HashGraph::flip`). -/
def flip (h : handle_t) : handle_t := ⟨h.id, !h.rev⟩

/-- Extract the node identifier (`HashGraph::get_id`). -/
def get_id (h : handle_t) : Int := h.id

/-- Extract the orientation bit (`HashGraph::get_is_reverse`). -/
def get_is_reverse (h : handle_t) : Bool := h.rev

/-- Construct a handle from id and orientation (`HashGraph::get_handle`). -/
def get_handle (node_id : Int) (is_rev : Bool) : handle_t := ⟨node_id, is_rev⟩

/-- The forward version of a handle (`handlegraph::HandleGraph::forward`). -/
def forward (h : handle_t) : handle_t := if h.rev then flip h else h

/-- Modelled from the spec: the complement of a DNA base used by
`reverse_complement` (the utility lives outside this repository's sources). -/
def complement (c : Char) : Char :=
  if c = 'A' then 'T'
  else if c = 'T' then 'A'
  else if c = 'C' then 'G'
  else if c = 'G' then 'C'
  else c

/-- Modelled from the spec: reverse-complement of a stored sequence. -/
def reverse_complement (s : List Char) : List Char := s.reverse.map complement

/-- One node record: forward-orientation sequence plus two adjacency lists
(`HashGraph::node_t`). -/
structure node_t where
  sequence : List Char := []
  left_edges : List handle_t := []
  right_edges : List handle_t := []
deriving DecidableEq, Repr, Inhabited

/-- One step on a path (`HashGraph::path_mapping_t`): the intrusive doubly
linked list is modelled as a Lean list of (uid, handle) pairs, the uid playing
the role of the node's stable address. -/
structure path_t where
  path_id : Int := 0
  name : List Char := []
  steps : List (Nat × handle_t) := []
  count : Nat := 0
deriving DecidableEq, Repr, Inhabited

/-- Association-list lookup: first binding of the key, if any
(model of `unordered_map::find` and `::at`). -/
def alist_get? {α β : Type} [DecidableEq α] (m : List (α × β)) (k : α) : Option β :=
  match m with
  | [] => none
  | (k2, v) :: rest => if k2 = k then some v else alist_get? rest k

/-- Association-list update (`operator[] = v`): replace in place when the key
is present, append a fresh binding otherwise. -/
def alist_set {α β : Type} [DecidableEq α] (m : List (α × β)) (k : α) (v : β) :
    List (α × β) :=
  match m with
  | [] => [(k, v)]
  | (k2, v2) :: rest => if k2 = k then (k2, v) :: rest else (k2, v2) :: alist_set rest k v

/-- Association-list erase (`unordered_map::erase`): drop every binding of the
key (a well-formed map holds at most one). -/
def alist_erase {α β : Type} [DecidableEq α] (m : List (α × β)) (k : α) :
    List (α × β) :=
  m.filter (fun kv => !(kv.1 = k : Bool))

/-- The whole engine state (`class HashGraph`).  `next_step_uid` models the
allocator: every `new path_mapping_t` yields a fresh uid. -/
structure HashGraph where
  graph : List (Int × node_t) := []
  max_id : Int := 0
  min_id : Int := 2 ^ 63 - 1
  next_path_id : Int := 1
  path_id : List (List Char × Int) := []
  paths : List (Int × path_t) := []
  occurrences : List (Int × List (Int × Nat)) := []
  next_step_uid : Nat := 0
deriving DecidableEq, Repr, Inhabited

/-- Read a node record; default-constructed when absent (the C++ `at` calls in
query methods throw instead, so every theorem about them assumes liveness). -/
def getNode (g : HashGraph) (i : Int) : node_t := (alist_get? g.graph i).getD {}

/-- Write a node record through `operator[]`. -/
def setNode (g : HashGraph) (i : Int) (nd : node_t) : HashGraph :=
  { g with graph := alist_set g.graph i nd }

/-- Read-modify-write of one node record (`graph[i].field = ...`). -/
def modifyNode (g : HashGraph) (i : Int) (f : node_t → node_t) : HashGraph :=
  setNode g i (f (getNode g i))

/-- Membership test (`HashGraph::has_node`). -/
def has_node (g : HashGraph) (node_id : Int) : Bool := (alist_get? g.graph node_id).isSome

/-- Sequence length (`HashGraph::get_length`). -/
def get_length (g : HashGraph) (h : handle_t) : Nat := (getNode g h.id).sequence.length

/-- Oriented sequence of a handle (`HashGraph::get_sequence`). -/
def get_sequence (g : HashGraph) (h : handle_t) : List Char :=
  if h.rev then reverse_complement (getNode g h.id).sequence else (getNode g h.id).sequence

/-- Node creation with an explicit id (`HashGraph::create_handle(sequence, id)`).
The C++ assigns `graph[id]` unconditionally, so an already-live id is
silently overwritten. -/
def create_handle_with_id (g : HashGraph) (sequence : List Char) (id : Int) :
    HashGraph × handle_t :=
  ({ g with graph := alist_set g.graph id { sequence := sequence },
            max_id := max g.max_id id,
            min_id := min g.min_id id },
   ⟨id, false⟩)

/-- Node creation with the next id past `max_id` (`HashGraph::create_handle(sequence)`). -/
def create_handle (g : HashGraph) (sequence : List Char) : HashGraph × handle_t :=
  create_handle_with_id g sequence (g.max_id + 1)

/-- Edge creation (`HashGraph::create_edge`): append to the side of `left`
selected by its orientation, and — except for a single-sided reversing
self-loop (`left = flip right`) — append the reciprocal entry on `right`. -/
def create_edge (g : HashGraph) (left right : handle_t) : HashGraph :=
  let g1 :=
    if left.rev then
      modifyNode g left.id (fun nd => { nd with left_edges := nd.left_edges ++ [right] })
    else
      modifyNode g left.id (fun nd => { nd with right_edges := nd.right_edges ++ [right] })
  if left = flip right then g1
  else if right.rev then
    modifyNode g1 right.id (fun nd => { nd with right_edges := nd.right_edges ++ [flip left] })
  else
    modifyNode g1 right.id (fun nd => { nd with left_edges := nd.left_edges ++ [flip left] })

/-- Sequential early-stopping visitation: the trace of arguments handed to the
visitor together with the final `keep_going` flag.  This is the explicit-effect
form of the C++ `for (...; it != end && keep_going; it++) keep_going = iteratee(...)`
loop shared by `follow_edges_impl` and `for_each_handle_impl`. -/
def visitSeq {α : Type} (f : α → Bool) : List α → List α × Bool
  | [] => ([], true)
  | x :: xs =>
    if f x then
      let r := visitSeq f xs
      (x :: r.1, r.2)
    else ([x], false)

/-- Edge traversal (`HashGraph::follow_edges_impl`): pick the left list when
the handle's orientation differs from `go_left`, flip each visited entry when
`go_left`, stop at the first `false`. -/
def follow_edges_impl (g : HashGraph) (handle : handle_t) (go_left : Bool)
    (iteratee : handle_t → Bool) : List handle_t × Bool :=
  let edge_list := if handle.rev != go_left then (getNode g handle.id).left_edges
                   else (getNode g handle.id).right_edges
  visitSeq iteratee (edge_list.map (fun e => if go_left then flip e else e))

/-- Sequential-mode node iteration (`HashGraph::for_each_handle_impl` with
`parallel = false`): visit `get_handle(it->first)` for each entry of the hash
container in its own iteration order, stopping at the first `false`. -/
def for_each_handle_impl (g : HashGraph) (iteratee : handle_t → Bool) :
    List handle_t × Bool :=
  visitSeq iteratee (g.graph.map (fun kv => get_handle kv.1 false))

/-- Which adjacency list of the *target* node holds the back-reference for a
stored target handle: `get_is_reverse(next) ? right_edges : left_edges`. -/
inductive Side where
  | left : Side
  | right : Side
deriving DecidableEq, Repr, Inhabited

/-- Select one adjacency list of a node record. -/
def node_side (nd : node_t) (s : Side) : List handle_t :=
  match s with
  | .left => nd.left_edges
  | .right => nd.right_edges

/-- Replace one adjacency list of a node record. -/
def set_side (nd : node_t) (s : Side) (l : List handle_t) : node_t :=
  match s with
  | .left => { nd with left_edges := l }
  | .right => { nd with right_edges := l }

/-- Read-modify-write of one adjacency list of one node. -/
def modifySide (g : HashGraph) (i : Int) (s : Side) (f : List handle_t → List handle_t) :
    HashGraph :=
  modifyNode g i (fun nd => set_side nd s (f (node_side nd s)))

/-- The side of the neighbor that stores the back-reference for target `next`. -/
def bwd_side (next : handle_t) : Side := if next.rev then .right else .left

/-- Swap-with-last removal of the first entry satisfying `p`: the C++
`x = list.back(); list.pop_back(); break` idiom used by `destroy_handle` and
on occurrence buckets.  The first hit is overwritten with the vector's last
element and the last slot is popped (when the hit is the last element itself,
that just pops it); with no hit the list is unchanged. -/
def swapRemoveFirst {α : Type} (p : α → Bool) : List α → List α
  | [] => []
  | x :: xs =>
    if p x then
      match xs with
      | [] => []
      | y :: ys => (y :: ys).getLastD y :: (y :: ys).dropLast
    else x :: swapRemoveFirst p xs

/-- Node destruction (`HashGraph::destroy_handle`): for each adjacency entry on
either side remove the first id-matching back-reference on the neighbor, then
drop the node record and its occurrence bucket.  The C++ iterates the node's
own live vectors; when the node has no self-edges (the loop body then only
touches other nodes' lists) that is the same as iterating this captured copy. -/
def destroy_handle (g : HashGraph) (handle : handle_t) : HashGraph :=
  let node := getNode g handle.id
  let g1 := (node.left_edges ++ node.right_edges).foldl
    (fun g2 next => modifySide g2 next.id (bwd_side next)
        (swapRemoveFirst (fun bwd => bwd.id == handle.id))) g
  { g1 with graph := alist_erase g1.graph handle.id,
            occurrences := alist_erase g1.occurrences handle.id }

/-- Append a step to a path (`HashGraph::path_t::push_back`): a fresh record at
the tail, and the stored count is incremented. -/
def path_t.push_back (p : path_t) (uid : Nat) (handle : handle_t) : path_t :=
  { p with steps := p.steps ++ [(uid, handle)], count := p.count + 1 }

/-- Insert a new step directly after the step with uid `u`; the unreachable
not-found case appends at the tail (under the occurrence-index invariant the
referenced step is always on the path). -/
def insertAfterUidGo (u : Nat) (entry : Nat × handle_t) :
    List (Nat × handle_t) → List (Nat × handle_t)
  | [] => [entry]
  | s :: rest => if s.1 = u then s :: entry :: rest else s :: insertAfterUidGo u entry rest

/-- Insert a new step after the given step, or at the head when the anchor is
`none` (`HashGraph::path_t::insert_after` with a null `mapping`). -/
def insertAfterUid (steps : List (Nat × handle_t)) (after : Option Nat)
    (entry : Nat × handle_t) : List (Nat × handle_t) :=
  match after with
  | none => entry :: steps
  | some u => insertAfterUidGo u entry steps

/-- Step insertion (`HashGraph::path_t::insert_after`): splices one new record
into the doubly linked list and increments the stored count. -/
def path_t.insert_after (p : path_t) (uid : Nat) (handle : handle_t)
    (after : Option Nat) : path_t :=
  { p with steps := insertAfterUid p.steps after (uid, handle), count := p.count + 1 }

/-- Append an entry to one occurrence bucket
(`occurrences[node_id].push_back(mapping)`); bucket entries are
(the mapping's `path_id` field, its uid). -/
def bucketPush (occ : List (Int × List (Int × Nat))) (i : Int) (e : Int × Nat) :
    List (Int × List (Int × Nat)) :=
  alist_set occ i ((alist_get? occ i).getD [] ++ [e])

/-- Path creation (`HashGraph::create_path_handle`): registers the name, stores
an empty path under `next_path_id`, and increments the counter.  Like the C++
`operator[]` writes, an existing binding of the same name or id is overwritten. -/
def create_path_handle (g : HashGraph) (name : List Char) : HashGraph × Int :=
  let pid := g.next_path_id
  ({ g with path_id := alist_set g.path_id name pid,
            paths := alist_set g.paths pid { path_id := pid, name := name },
            next_path_id := pid + 1 },
   pid)

/-- Step append (`HashGraph::append_occurrence`): push onto the path's tail and
register the new record in the target node's occurrence bucket. -/
def append_occurrence (g : HashGraph) (path : Int) (to_append : handle_t) :
    HashGraph × (Int × Nat) :=
  let uid := g.next_step_uid
  let p := (alist_get? g.paths path).getD {}
  ({ g with paths := alist_set g.paths path (p.push_back uid to_append),
            occurrences := bucketPush g.occurrences to_append.id (p.path_id, uid),
            next_step_uid := uid + 1 },
   (path, uid))

/-- Stored step count of a path (`HashGraph::get_occurrence_count`). -/
def get_occurrence_count (g : HashGraph) (path : Int) : Nat :=
  ((alist_get? g.paths path).getD {}).count

/-- Path destruction (`HashGraph::destroy_path`): remove each step's record
from its node's occurrence bucket (pointer comparison becomes uid comparison),
then discard the path record and its name registration. -/
def destroy_path (g : HashGraph) (path : Int) : HashGraph :=
  let p := (alist_get? g.paths path).getD {}
  let g1 := p.steps.foldl
    (fun g2 su =>
      let bucket := (alist_get? g2.occurrences su.2.id).getD []
      let bucket2 := swapRemoveFirst (fun e => e.2 == su.1) bucket
      { g2 with occurrences := alist_set g2.occurrences su.2.id bucket2 }) g
  { g1 with path_id := alist_erase g1.path_id p.name,
            paths := alist_erase g1.paths path }

/-- Unsigned 64-bit subtraction (`size_t` arithmetic): wraps modulo `2 ^ 64`
when the subtrahend is larger, exactly as in the C++ for operands below
`2 ^ 64`.  The wrapped value is astronomically larger than any stored
sequence, so the subsequent `substr`, modelled by `take`, keeps everything
from the start position on. -/
def sub64 (a b : Nat) : Nat := if b ≤ a then a - b else a + 2 ^ 64 - b

/-- Replace (in place) the first entry satisfying `p` by `v`: the
`bwd_target = ...; break` retargeting loop of `divide_handle`. -/
def replaceFirst {α : Type} (p : α → Bool) (v : α) : List α → List α
  | [] => []
  | x :: xs => if p x then v :: xs else x :: replaceFirst p v xs

/-- Find the position of the step with the given uid. -/
def findStepIdx (steps : List (Nat × handle_t)) (uid : Nat) : Option Nat :=
  steps.findIdx? (fun s => s.1 == uid)

/-- Insert a run of new steps into path `pid`, each spliced directly after the
previously inserted one (`mapping = path.insert_after(..., mapping)`), starting
after `start` (`none` = at the head), registering each new record in its
node's occurrence bucket. -/
def insertRun (g : HashGraph) (pid : Int) (start : Option Nat) (hs : List handle_t) :
    HashGraph :=
  (hs.foldl
    (fun (acc : HashGraph × Option Nat) h =>
      let uid := acc.1.next_step_uid
      let p := (alist_get? acc.1.paths pid).getD {}
      let p2 := p.insert_after uid h acc.2
      let occ2 := bucketPush acc.1.occurrences h.id (p.path_id, uid)
      ({ acc.1 with paths := alist_set acc.1.paths pid p2,
                    occurrences := occ2,
                    next_step_uid := uid + 1 },
       some uid))
    (g, start)).1

/-- Rehome one occurrence of the divided node (`divide_handle`'s path-update
loop body): a forward step gets `return_val[1..]` inserted after it in order; a
reverse step first retreats to its predecessor (`mapping = mapping->prev`,
null at the head) and then gets `flip(return_val[i])` inserted for
`i = size-1` down to `1`. -/
def dividePathUpdate (g : HashGraph) (return_val : List handle_t) (pe : Int × Nat) :
    HashGraph :=
  let p := (alist_get? g.paths pe.1).getD {}
  match findStepIdx p.steps pe.2 with
  | none => g
  | some j =>
    let mhandle := (p.steps.getD j default).2
    if mhandle.rev then
      let start : Option Nat := if j = 0 then none else some ((p.steps.getD (j - 1) default).1)
      insertRun g pe.1 start
        (((List.range (return_val.length - 1)).reverse).map
          (fun k => flip (return_val.getD (k + 1) default)))
    else
      insertRun g pe.1 (some pe.2)
        ((List.range (return_val.length - 1)).map
          (fun k => return_val.getD (k + 1) default))

/-- Node splitting (`HashGraph::divide_handle`).  A direct translation: the
offsets are mapped into the node's forward coordinates (note: the C++ does not
re-sort them for a reverse handle), the pieces are cut with `substr`
(`size_t` length arithmetic wraps via `sub64` and `take` clamps), right-side
edges move to the last piece and their back-references are retargeted, the
pieces are chained with fresh edges, every occurrence of the original node is
rehomed on its path, and for a reverse input the returned handles are reversed
and flipped. -/
def divide_handle (g0 : HashGraph) (handle : handle_t) (offsets : List Nat) :
    HashGraph × List handle_t :=
  let node_length := get_length g0 handle
  let forward_offsets :=
    if handle.rev then offsets.map (fun off => sub64 node_length off) else offsets
  let forward_handle := forward handle
  if offsets.isEmpty then (g0, [forward_handle])
  else
    let n := forward_offsets.length
    let s1 := (List.range n).foldl
      (fun (acc : HashGraph × List handle_t) i =>
        let len := sub64 (if i + 1 < n then forward_offsets.getD (i + 1) 0 else node_length)
          (forward_offsets.getD i 0)
        let piece := ((getNode acc.1 handle.id).sequence.drop (forward_offsets.getD i 0)).take len
        let r := create_handle acc.1 piece
        (r.1, acc.2 ++ [r.2]))
      (g0, [forward_handle])
    let g1 := s1.1
    let return_val := s1.2
    let g2 := modifyNode g1 handle.id
      (fun nd => { nd with sequence := nd.sequence.take (forward_offsets.headD 0) })
    let last := return_val.getLastD forward_handle
    let moved := (getNode g2 handle.id).right_edges
    let g3 := modifyNode g2 last.id (fun nd => { nd with right_edges := moved })
    let g4 := modifyNode g3 handle.id (fun nd => { nd with right_edges := [] })
    let g5 := moved.foldl
      (fun g next => modifySide g next.id (bwd_side next)
        (replaceFirst (fun bwd => bwd == flip forward_handle) (flip last))) g4
    let g6 := (List.range (return_val.length - 1)).foldl
      (fun g i => create_edge g (return_val.getD i default) (return_val.getD (i + 1) default)) g5
    let bucket := (alist_get? g6.occurrences handle.id).getD []
    let g7 := bucket.foldl (fun g pe => dividePathUpdate g return_val pe) g6
    if handle.rev then (g7, (return_val.reverse).map flip) else (g7, return_val)

/-- Concatenation of a list of lists (used both for spec statements and for
the byte-stream serializer below). -/
def catLists {α : Type} : List (List α) → List α
  | [] => []
  | x :: xs => x ++ catLists xs

@[simp]
theorem flip_flip (h : handle_t) : flip (flip h) = h := by
  simp [flip]

@[simp]
theorem id_flip (h : handle_t) : (flip h).id = h.id := rfl

@[simp]
theorem alist_get?_set_self {α β : Type} [DecidableEq α] (m : List (α × β)) (k : α) (v : β) :
    alist_get? (alist_set m k v) k = some v := by
  induction m with
  | nil => simp [alist_set, alist_get?]
  | cons kv rest ih =>
    obtain ⟨k2, v2⟩ := kv
    by_cases h : k2 = k <;> simp [alist_set, alist_get?, h, ih]

theorem alist_get?_set_ne {α β : Type} [DecidableEq α] (m : List (α × β)) (k k2 : α) (v : β)
    (h : k2 ≠ k) : alist_get? (alist_set m k v) k2 = alist_get? m k2 := by
  induction m with
  | nil =>
    simp only [alist_set, alist_get?]
    rw [if_neg (Ne.symm h)]
  | cons kv rest ih =>
    obtain ⟨k3, v3⟩ := kv
    simp only [alist_set]
    by_cases h3 : k3 = k
    · subst h3
      simp only [if_pos rfl, alist_get?]
      rw [if_neg (Ne.symm h), if_neg (Ne.symm h)]
    · simp only [if_neg h3, alist_get?]
      by_cases h2 : k3 = k2
      · simp [h2]
      · simp [h2, ih]

@[simp]
theorem alist_get?_erase_self {α β : Type} [DecidableEq α] (m : List (α × β)) (k : α) :
    alist_get? (alist_erase m k) k = none := by
  induction m with
  | nil => simp [alist_erase, alist_get?]
  | cons kv rest ih =>
    obtain ⟨k2, v2⟩ := kv
    by_cases h : k2 = k
    · simpa [alist_erase, List.filter_cons, h] using ih
    · simpa [alist_erase, List.filter_cons, h, alist_get?] using ih

theorem alist_get?_erase_ne {α β : Type} [DecidableEq α] (m : List (α × β)) (k k2 : α)
    (h : k2 ≠ k) : alist_get? (alist_erase m k) k2 = alist_get? m k2 := by
  induction m with
  | nil => simp [alist_erase, alist_get?]
  | cons kv rest ih =>
    obtain ⟨k3, v3⟩ := kv
    by_cases h3 : k3 = k
    · subst h3
      have h4 : ¬ k3 = k2 := Ne.symm h
      simp only [alist_erase, List.filter_cons] at ih ⊢
      simpa [alist_get?, h4] using ih
    · simp only [alist_erase, List.filter_cons] at ih ⊢
      by_cases h2 : k3 = k2
      · subst h2
        simp [alist_get?, h3]
      · simpa [alist_get?, h3, h2] using ih

theorem alist_get?_isSome_iff {α β : Type} [DecidableEq α] (m : List (α × β)) (k : α) :
    (alist_get? m k).isSome = true ↔ k ∈ m.map Prod.fst := by
  induction m with
  | nil => simp [alist_get?]
  | cons kv rest ih =>
    obtain ⟨k2, v2⟩ := kv
    by_cases h : k2 = k
    · subst h
      simp [alist_get?]
    · have h2 : ¬ k = k2 := Ne.symm h
      simp [alist_get?, h, h2, ih]

theorem alist_get?_eq_some_of_mem {α β : Type} [DecidableEq α] (m : List (α × β))
    (kv : α × β) (hnd : (m.map Prod.fst).Nodup) (hm : kv ∈ m) :
    alist_get? m kv.1 = some kv.2 := by
  induction m with
  | nil => simp at hm
  | cons kv2 rest ih =>
    obtain ⟨k2, v2⟩ := kv2
    simp only [List.map_cons, List.nodup_cons] at hnd
    rcases List.mem_cons.mp hm with hm2 | hm2
    · subst hm2
      simp [alist_get?]
    · have hne : k2 ≠ kv.1 := by
        intro he
        exact hnd.1 (he ▸ (List.mem_map_of_mem Prod.fst hm2))
      simp [alist_get?, hne, ih hnd.2 hm2]

theorem alist_keys_set {α β : Type} [DecidableEq α] (m : List (α × β)) (k : α) (v : β) :
    (alist_set m k v).map Prod.fst = if k ∈ m.map Prod.fst then m.map Prod.fst
                                     else m.map Prod.fst ++ [k] := by
  induction m with
  | nil => simp [alist_set]
  | cons kv rest ih =>
    obtain ⟨k2, v2⟩ := kv
    by_cases h : k2 = k
    · subst h
      simp [alist_set]
    · have h2 : ¬ k = k2 := Ne.symm h
      by_cases h3 : k ∈ rest.map Prod.fst <;>
        simp [alist_set, h, h2, h3, ih]

theorem alist_nodup_set {α β : Type} [DecidableEq α] (m : List (α × β)) (k : α) (v : β)
    (hnd : (m.map Prod.fst).Nodup) : ((alist_set m k v).map Prod.fst).Nodup := by
  rw [alist_keys_set]
  by_cases h : k ∈ m.map Prod.fst
  · simpa [h] using hnd
  · rw [if_neg h]
    refine List.Nodup.append hnd (by simp) ?_
    intro a ha hb
    simp only [List.mem_singleton] at hb
    subst hb
    exact h ha

theorem visitSeq_spec {α : Type} (f : α → Bool) (l : List α) :
    visitSeq f l = (l.takeWhile f ++ (l.dropWhile f).take 1, l.all f) := by
  induction l with
  | nil => simp [visitSeq]
  | cons x xs ih =>
    by_cases h : f x = true <;>
      simp [visitSeq, h, ih, List.takeWhile_cons, List.dropWhile_cons]

theorem visitSeq_false_iff {α : Type} (f : α → Bool) (l : List α) :
    (visitSeq f l).2 = false ↔ ∃ x ∈ (visitSeq f l).1, f x = false := by
  induction l with
  | nil => simp [visitSeq]
  | cons x xs ih =>
    by_cases h : f x = true <;> simp [visitSeq, h, ih]

/-- A graph holding one node 1 with sequence AAACCC (reachable via create_handle). -/
def exampleGraphC1 : HashGraph := (create_handle_with_id {} ['A', 'A', 'A', 'C', 'C', 'C'] 1).1

/-- A graph holding one node 1 with sequence AACC. -/
def exampleGraphC2 : HashGraph := (create_handle_with_id {} ['A', 'A', 'C', 'C'] 1).1

/-- Claim C1, evaluated at a failing input.  For a reverse handle the offsets
are translated to forward coordinates but not re-sorted, so with two offsets
the `size_t` segment-length subtraction wraps and the produced segments
overlap: on node 1 = AAACCC with the reverse handle (whose sequence is GGGTTT)
and offsets [2, 4], the returned segments' sequences concatenate to
GGGTGGGTTT, not GGGTTT.  The last two conjuncts show the same split
round-trips both for the forward handle and for a reverse handle with a
single offset, isolating the missing re-sort as the slip. -/
theorem divide_handle_reverse_two_offsets_breaks_round_trip :
    get_sequence exampleGraphC1 ⟨1, true⟩ = ['G', 'G', 'G', 'T', 'T', 'T']
    ∧ catLists ((divide_handle exampleGraphC1 ⟨1, true⟩ [2, 4]).2.map
        (fun s => get_sequence (divide_handle exampleGraphC1 ⟨1, true⟩ [2, 4]).1 s))
      = ['G', 'G', 'G', 'T', 'G', 'G', 'G', 'T', 'T', 'T']
    ∧ (['G', 'G', 'G', 'T', 'G', 'G', 'G', 'T', 'T', 'T'] : List Char)
        ≠ ['G', 'G', 'G', 'T', 'T', 'T']
    ∧ catLists ((divide_handle exampleGraphC1 ⟨1, false⟩ [2, 4]).2.map
        (fun s => get_sequence (divide_handle exampleGraphC1 ⟨1, false⟩ [2, 4]).1 s))
      = ['A', 'A', 'A', 'C', 'C', 'C']
    ∧ catLists ((divide_handle exampleGraphC1 ⟨1, true⟩ [2]).2.map
        (fun s => get_sequence (divide_handle exampleGraphC1 ⟨1, true⟩ [2]).1 s))
      = ['G', 'G', 'G', 'T', 'T', 'T'] := by
  refine ⟨by decide, by decide, by decide, by decide, by decide⟩

/-- Claim C2 (amended): divide_handle with an empty offset vector performs no
split and modifies no state, but the single element it returns is the forward
version of the input handle — equal to the input only when the input is
already forward. -/
theorem divide_handle_empty_offsets (g : HashGraph) (h : handle_t)
    (hl : has_node g h.id = true) :
    divide_handle g h [] = (g, [forward h]) := rfl

/-- Witness for divide_handle_empty_offsets at a concrete reverse handle. -/
theorem divide_handle_empty_offsets_witness :
    has_node exampleGraphC2 1 = true
    ∧ divide_handle exampleGraphC2 ⟨1, true⟩ [] = (exampleGraphC2, [forward ⟨1, true⟩]) :=
  ⟨by decide, divide_handle_empty_offsets exampleGraphC2 ⟨1, true⟩ (by decide)⟩

/-- Claim C2 as stated is false for a reverse handle: the returned element is
the forward handle, not the input handle itself. -/
theorem divide_handle_empty_offsets_not_input :
    (divide_handle exampleGraphC2 ⟨1, true⟩ []).2 ≠ [⟨1, true⟩] := by decide

/-- A graph holding one node 1 with sequence A. -/
def exampleGraphC8 : HashGraph := (create_handle_with_id {} ['A'] 1).1

/-- Claim C8 (amended): create_handle with an already-live id raises no error;
it silently replaces the existing node record with a fresh one holding the new
sequence and empty adjacency lists, and returns the forward handle for that id. -/
theorem create_handle_duplicate_id_overwrites (g : HashGraph) (sequence : List Char)
    (id : Int) (hl : has_node g id = true) :
    (create_handle_with_id g sequence id).2 = ⟨id, false⟩
    ∧ alist_get? (create_handle_with_id g sequence id).1.graph id
        = some { sequence := sequence, left_edges := [], right_edges := [] } :=
  ⟨rfl, by simp [create_handle_with_id]⟩

/-- Witness for create_handle_duplicate_id_overwrites on a live id. -/
theorem create_handle_duplicate_id_overwrites_witness :
    has_node exampleGraphC8 1 = true
    ∧ (create_handle_with_id exampleGraphC8 ['C'] 1).2 = ⟨1, false⟩
    ∧ alist_get? (create_handle_with_id exampleGraphC8 ['C'] 1).1.graph 1
        = some { sequence := ['C'], left_edges := [], right_edges := [] } :=
  ⟨by decide,
   (create_handle_duplicate_id_overwrites exampleGraphC8 ['C'] 1 (by decide)).1,
   (create_handle_duplicate_id_overwrites exampleGraphC8 ['C'] 1 (by decide)).2⟩

/-- Claim C8 as stated is false: creating over the live id 1 raises nothing
and does change the graph state (node 1's record is replaced). -/
theorem create_handle_duplicate_id_changes_state :
    has_node exampleGraphC8 1 = true
    ∧ (create_handle_with_id exampleGraphC8 ['C'] 1).1.graph ≠ exampleGraphC8.graph := by
  refine ⟨by decide, by decide⟩

/-- Claim C9 (amended): create_handle returns a forward handle; its id is the
supplied id, or the tracked max_id bound plus one when the id is omitted (the
bound is never lowered by destroy_handle, so it can exceed the maximum live
id); get_sequence on the returned handle is the supplied sequence verbatim. -/
theorem create_handle_forward_and_verbatim (g : HashGraph) (sequence : List Char)
    (id : Int) :
    (create_handle g sequence).2 = ⟨g.max_id + 1, false⟩
    ∧ get_sequence (create_handle g sequence).1 (create_handle g sequence).2 = sequence
    ∧ (create_handle_with_id g sequence id).2 = ⟨id, false⟩
    ∧ get_sequence (create_handle_with_id g sequence id).1 ⟨id, false⟩ = sequence := by
  refine ⟨rfl, ?_, rfl, ?_⟩ <;>
    simp [create_handle, create_handle_with_id, get_sequence, getNode]

/-- Nodes 1 and 5 created, node 5 destroyed: the tracked max_id stays 5. -/
def exampleGraphC9 : HashGraph :=
  destroy_handle (create_handle_with_id (create_handle_with_id {} ['A'] 1).1 ['C'] 5).1
    ⟨5, false⟩

/-- Claim C9's parenthetical is false as stated: with live ids = {1} after
destroying node 5, an id-less create_handle yields id 6 (tracked max_id + 1),
not max-live-id + 1 = 2. -/
theorem create_handle_id_exceeds_max_live :
    (∀ kv ∈ exampleGraphC9.graph, kv.1 = 1)
    ∧ (create_handle exampleGraphC9 ['G']).2.id = 6
    ∧ (6 : Int) ≠ 1 + 1 := by
  refine ⟨by decide, by decide, by decide⟩

/-- The entries C6 says follow_edges hands to the visitor: the left adjacency
list exactly when is_reverse(handle) XOR go_left and the right list otherwise,
each entry flipped when go_left. -/
def looking_list (g : HashGraph) (handle : handle_t) (go_left : Bool) : List handle_t :=
  (if get_is_reverse handle != go_left then (getNode g handle.id).left_edges
   else (getNode g handle.id).right_edges).map (fun e => if go_left then flip e else e)

/-- Claim C6: follow_edges visits exactly the prefix of `looking_list` up to
and including the first entry refused by the visitor, in order, and returns
false exactly when some visited entry returned false (equivalently, its result
is the conjunction over the whole selected list). -/
theorem follow_edges_impl_spec (g : HashGraph) (handle : handle_t) (go_left : Bool)
    (f : handle_t → Bool) (hl : has_node g handle.id = true) :
    follow_edges_impl g handle go_left f =
      ((looking_list g handle go_left).takeWhile f
        ++ ((looking_list g handle go_left).dropWhile f).take 1,
       (looking_list g handle go_left).all f)
    ∧ ((follow_edges_impl g handle go_left f).2 = false ↔
        ∃ x ∈ (follow_edges_impl g handle go_left f).1, f x = false) :=
  ⟨visitSeq_spec f (looking_list g handle go_left),
   visitSeq_false_iff f (looking_list g handle go_left)⟩

/-- Node 1 (AC) and node 2 (G) with two edges out of node 1's right side. -/
def exampleGraphC6 : HashGraph :=
  create_edge (create_edge
    ((create_handle_with_id (create_handle_with_id {} ['A', 'C'] 1).1 ['G'] 2).1)
    ⟨1, false⟩ ⟨2, false⟩) ⟨1, false⟩ ⟨2, true⟩

/-- Witness for follow_edges_impl_spec: on node 1's right side with a visitor
refusing reverse handles, only the first two entries are visited and the call
returns false. -/
theorem follow_edges_impl_spec_witness :
    has_node exampleGraphC6 1 = true
    ∧ follow_edges_impl exampleGraphC6 ⟨1, false⟩ false (fun x => !x.rev) =
        ((looking_list exampleGraphC6 ⟨1, false⟩ false).takeWhile (fun x => !x.rev)
          ++ ((looking_list exampleGraphC6 ⟨1, false⟩ false).dropWhile (fun x => !x.rev)).take 1,
         (looking_list exampleGraphC6 ⟨1, false⟩ false).all (fun x => !x.rev))
    ∧ ((follow_edges_impl exampleGraphC6 ⟨1, false⟩ false (fun x => !x.rev)).2 = false ↔
        ∃ x ∈ (follow_edges_impl exampleGraphC6 ⟨1, false⟩ false (fun x => !x.rev)).1,
          (fun x : handle_t => !x.rev) x = false) :=
  ⟨by decide,
   (follow_edges_impl_spec exampleGraphC6 ⟨1, false⟩ false (fun x => !x.rev) (by decide)).1,
   (follow_edges_impl_spec exampleGraphC6 ⟨1, false⟩ false (fun x => !x.rev) (by decide)).2⟩

/-- Claim C7 (amended): sequential for_each_handle visits the hash container's
entries in the container's own iteration order — not sorted by node id — as
forward handles, with the early-stop contract of C6; when no visitor refuses,
every live node id is visited exactly once. -/
theorem for_each_handle_impl_spec (g : HashGraph) (f : handle_t → Bool)
    (hnd : (g.graph.map Prod.fst).Nodup) :
    for_each_handle_impl g f =
      ((g.graph.map (fun kv => get_handle kv.1 false)).takeWhile f
        ++ ((g.graph.map (fun kv => get_handle kv.1 false)).dropWhile f).take 1,
       (g.graph.map (fun kv => get_handle kv.1 false)).all f)
    ∧ ((for_each_handle_impl g f).2 = false ↔
        ∃ x ∈ (for_each_handle_impl g f).1, f x = false)
    ∧ ((for_each_handle_impl g f).2 = true →
        ((for_each_handle_impl g f).1.map get_id = g.graph.map Prod.fst
         ∧ ((for_each_handle_impl g f).1.map get_id).Nodup
         ∧ ∀ i : Int, has_node g i = true ↔ i ∈ (for_each_handle_impl g f).1.map get_id)) := by
  refine ⟨visitSeq_spec f _, visitSeq_false_iff f _, ?_⟩
  intro hb
  have hspec := visitSeq_spec f (g.graph.map (fun kv => get_handle kv.1 false))
  have hall : (g.graph.map (fun kv => get_handle kv.1 false)).all f = true := by
    have h2 := congrArg Prod.snd hspec
    simp only [for_each_handle_impl] at hb
    rw [h2] at hb
    exact hb
  have htrace : (for_each_handle_impl g f).1 = g.graph.map (fun kv => get_handle kv.1 false) := by
    have h2 := congrArg Prod.fst hspec
    simp only [for_each_handle_impl] at h2 ⊢
    rw [h2]
    rw [List.takeWhile_eq_self_iff.mpr (by simpa using List.all_eq_true.mp hall),
        List.dropWhile_eq_nil_iff.mpr (by simpa using List.all_eq_true.mp hall)]
    simp
  have hids : (for_each_handle_impl g f).1.map get_id = g.graph.map Prod.fst := by
    rw [htrace, List.map_map]
    rfl
  refine ⟨hids, ?_, ?_⟩
  · rw [hids]
    exact hnd
  · intro i
    rw [hids, has_node, alist_get?_isSome_iff]

/-- Node 2 created before node 1: the container iterates [2, 1]. -/
def exampleGraphC7 : HashGraph :=
  (create_handle_with_id (create_handle_with_id {} ['A'] 2).1 ['C'] 1).1

/-- Claim C7 as stated is false: creating node 2 and then node 1 makes
sequential for_each_handle visit the ids in container order [2, 1], which is
not increasing id order. -/
theorem for_each_handle_impl_not_id_sorted :
    (for_each_handle_impl exampleGraphC7 (fun x => true)).1.map get_id = [2, 1]
    ∧ ¬ List.Chain' (· < ·) ((for_each_handle_impl exampleGraphC7 (fun x => true)).1.map get_id) := by
  have h : (for_each_handle_impl exampleGraphC7 (fun x => true)).1.map get_id = [2, 1] := by
    decide
  refine ⟨h, ?_⟩
  rw [h]
  intro hc
  rcases List.chain'_cons.mp hc with ⟨hlt, hrest⟩
  omega

/-- Witness for for_each_handle_impl_spec at a concrete two-node graph with a
visitor that accepts everything. -/
theorem for_each_handle_impl_spec_witness :
    (exampleGraphC7.graph.map Prod.fst).Nodup
    ∧ ((for_each_handle_impl exampleGraphC7 (fun x => true)).2 = true →
        ((for_each_handle_impl exampleGraphC7 (fun x => true)).1.map get_id
            = exampleGraphC7.graph.map Prod.fst
         ∧ ((for_each_handle_impl exampleGraphC7 (fun x => true)).1.map get_id).Nodup
         ∧ ∀ i : Int, has_node exampleGraphC7 i = true ↔
             i ∈ (for_each_handle_impl exampleGraphC7 (fun x => true)).1.map get_id)) :=
  ⟨by decide, (for_each_handle_impl_spec exampleGraphC7 (fun x => true) (by decide)).2.2⟩

/-- All adjacency entries of a node, both sides concatenated. -/
def entriesOf (g : HashGraph) (i : Int) : List handle_t :=
  (getNode g i).left_edges ++ (getNode g i).right_edges

/-- Total number of adjacency entries summed across both lists of a node. -/
def degree_total (g : HashGraph) (i : Int) : Nat := (entriesOf g i).length

@[simp]
theorem getNode_modifyNode_self (g : HashGraph) (i : Int) (f : node_t → node_t) :
    getNode (modifyNode g i f) i = f (getNode g i) := by
  simp [getNode, modifyNode, setNode]

theorem getNode_modifyNode_ne (g : HashGraph) (i j : Int) (f : node_t → node_t)
    (h : j ≠ i) : getNode (modifyNode g i f) j = getNode g j := by
  simp [getNode, modifyNode, setNode, alist_get?_set_ne _ _ _ _ h]

/-- Claim C4: a single-sided reversing self-loop create_edge(h, flip h) adds
exactly one entry across the node's two adjacency lists; for h1 ≠ flip h2,
create_edge appends exactly one entry (the handle h2) on h1's node and exactly
one reciprocal entry (flip h1) on h2's node — two entries on the one node when
h1 and h2 share a node, one entry on each of the two nodes otherwise. -/
theorem create_edge_entry_counts (g : HashGraph) (h h1 h2 : handle_t)
    (hl : has_node g h.id = true) (hl1 : has_node g h1.id = true)
    (hl2 : has_node g h2.id = true) (hne : h1 ≠ flip h2) :
    degree_total (create_edge g h (flip h)) h.id = degree_total g h.id + 1
    ∧ (entriesOf (create_edge g h1 h2) h1.id).count h2
        = (entriesOf g h1.id).count h2 + 1
    ∧ (entriesOf (create_edge g h1 h2) h2.id).count (flip h1)
        = (entriesOf g h2.id).count (flip h1) + 1
    ∧ (h1.id = h2.id → degree_total (create_edge g h1 h2) h1.id = degree_total g h1.id + 2)
    ∧ (h1.id ≠ h2.id →
        degree_total (create_edge g h1 h2) h1.id = degree_total g h1.id + 1
        ∧ degree_total (create_edge g h1 h2) h2.id = degree_total g h2.id + 1) := by
  have hne2 : h2 ≠ flip h1 := fun he => hne (by rw [he, flip_flip])
  refine ⟨?_, ?_, ?_, ?_, ?_⟩
  · by_cases hr : h.rev <;>
      · simp [create_edge, hr, degree_total, entriesOf]
        omega
  · by_cases hid : h1.id = h2.id
    · by_cases r1 : h1.rev <;> by_cases r2 : h2.rev <;>
        · simp [create_edge, hne, r1, r2, hid, entriesOf, getNode_modifyNode_ne,
                List.count_append, List.count_singleton, List.count_cons,
                beq_iff_eq, hne2] <;> omega
    · by_cases r1 : h1.rev <;> by_cases r2 : h2.rev <;>
        · simp [create_edge, hne, r1, r2, entriesOf,
                getNode_modifyNode_ne _ _ _ _ hid, List.count_append,
                List.count_singleton, List.count_cons, beq_iff_eq, hne2] <;> omega
  · by_cases hid : h1.id = h2.id
    · by_cases r1 : h1.rev <;> by_cases r2 : h2.rev <;>
        · simp [create_edge, hne, r1, r2, hid, entriesOf,
                List.count_append, List.count_singleton, List.count_cons,
                beq_iff_eq, hne2] <;> omega
    · have hid2 : h2.id ≠ h1.id := Ne.symm hid
      by_cases r1 : h1.rev <;> by_cases r2 : h2.rev <;>
        · simp [create_edge, hne, r1, r2, entriesOf,
                getNode_modifyNode_ne _ _ _ _ hid2, List.count_append,
                List.count_singleton, List.count_cons, beq_iff_eq, hne2] <;> omega
  · intro hid
    by_cases r1 : h1.rev <;> by_cases r2 : h2.rev <;>
      · simp [create_edge, hne, r1, r2, hid, entriesOf, degree_total]
        omega
  · intro hid
    have hid2 : h2.id ≠ h1.id := Ne.symm hid
    constructor
    · by_cases r1 : h1.rev <;> by_cases r2 : h2.rev <;>
        · simp [create_edge, hne, r1, r2, entriesOf, degree_total,
                getNode_modifyNode_ne _ _ _ _ hid]
          omega
    · by_cases r1 : h1.rev <;> by_cases r2 : h2.rev <;>
        · simp [create_edge, hne, r1, r2, entriesOf, degree_total,
                getNode_modifyNode_ne _ _ _ _ hid2]
          omega

/-- Witness for create_edge_entry_counts on exampleGraphC6 (nodes 1 and 2),
with the reversing self-loop on node 1 and the ordinary edge 1 → 2. -/
theorem create_edge_entry_counts_witness :
    has_node exampleGraphC6 1 = true
    ∧ (⟨1, false⟩ : handle_t) ≠ flip ⟨2, false⟩
    ∧ degree_total (create_edge exampleGraphC6 ⟨1, false⟩ (flip ⟨1, false⟩)) 1
        = degree_total exampleGraphC6 1 + 1
    ∧ ((1 : Int) ≠ 2 →
        degree_total (create_edge exampleGraphC6 ⟨1, false⟩ ⟨2, false⟩) 1
          = degree_total exampleGraphC6 1 + 1
        ∧ degree_total (create_edge exampleGraphC6 ⟨1, false⟩ ⟨2, false⟩) 2
          = degree_total exampleGraphC6 2 + 1) :=
  ⟨by decide, by decide,
   (create_edge_entry_counts exampleGraphC6 ⟨1, false⟩ ⟨1, false⟩ ⟨2, false⟩
      (by decide) (by decide) (by decide) (by decide)).1,
   (create_edge_entry_counts exampleGraphC6 ⟨1, false⟩ ⟨1, false⟩ ⟨2, false⟩
      (by decide) (by decide) (by decide) (by decide)).2.2.2.2⟩

/-- Big-endian bytes of an unsigned 64-bit value
(`endianness<uint64_t>::to_big_endian` followed by `ostream::write`). -/
def encodeU64 (n : Nat) : List Nat :=
  [n % 2 ^ 64 / 2 ^ 56, n / 2 ^ 48 % 256, n / 2 ^ 40 % 256, n / 2 ^ 32 % 256,
   n / 2 ^ 24 % 256, n / 2 ^ 16 % 256, n / 2 ^ 8 % 256, n % 256]

/-- Big-endian bytes of a signed 64-bit value: the two's-complement bit
pattern, i.e. the value modulo `2 ^ 64`. -/
def encodeI64 (v : Int) : List Nat := encodeU64 (v % 2 ^ 64).toNat

/-- Read eight big-endian bytes as an unsigned 64-bit value. -/
def readU64 : List Nat → Option (Nat × List Nat)
  | b0 :: b1 :: b2 :: b3 :: b4 :: b5 :: b6 :: b7 :: rest =>
    some (((((((b0 * 256 + b1) * 256 + b2) * 256 + b3) * 256 + b4) * 256 + b5) * 256 + b6)
            * 256 + b7, rest)
  | _ => none

/-- Read eight big-endian bytes as a signed 64-bit value (two's complement). -/
def readI64 (l : List Nat) : Option (Int × List Nat) :=
  (readU64 l).map
    (fun nr => (if nr.1 < 2 ^ 63 then (nr.1 : Int) else (nr.1 : Int) - 2 ^ 64, nr.2))

/-- Write one character as one stream cell (the `ostream::write` of raw
string bytes; the stored alphabet is ASCII, one byte per character). -/
def encodeChar (c : Char) : List Nat := [c.toNat]

/-- Read one character back. -/
def readChar : List Nat → Option (Char × List Nat)
  | b :: rest => some (Char.ofNat b, rest)
  | [] => none

/-- Modelled from the spec: `number_bool_packing`'s packed integer form of a
handle, `id * 2 + orientation bit`, which is what the serializer writes
(`as_integer(handle)`). -/
def handle_pack (h : handle_t) : Int := 2 * h.id + (if h.rev then 1 else 0)

/-- Modelled from the spec: unpacking a handle from its packed integer. -/
def handle_unpack (v : Int) : handle_t := ⟨v / 2, v % 2 == 1⟩

/-- Read a packed handle. -/
def readHandle (l : List Nat) : Option (handle_t × List Nat) :=
  (readI64 l).map (fun vr => (handle_unpack vr.1, vr.2))

/-- Read `n` items with the given item reader. -/
def readList {α : Type} (read1 : List Nat → Option (α × List Nat)) :
    Nat → List Nat → Option (List α × List Nat)
  | 0, l => some ([], l)
  | n + 1, l =>
    match read1 l with
    | none => none
    | some (x, l2) =>
      match readList read1 n l2 with
      | none => none
      | some (xs, l3) => some (x :: xs, l3)

/-- Node record serialization (`HashGraph::node_t::serialize`): sequence
length and bytes, then each adjacency list as a count and packed handles. -/
def node_t.serialize (nd : node_t) : List Nat :=
  encodeU64 nd.sequence.length ++ catLists (nd.sequence.map encodeChar)
  ++ encodeU64 nd.left_edges.length
  ++ catLists (nd.left_edges.map (fun e => encodeI64 (handle_pack e)))
  ++ encodeU64 nd.right_edges.length
  ++ catLists (nd.right_edges.map (fun e => encodeI64 (handle_pack e)))

/-- Node record deserialization (`HashGraph::node_t::deserialize`). -/
def node_t.deserialize (l : List Nat) : Option (node_t × List Nat) :=
  (readU64 l).bind (fun a =>
  (readList readChar a.1 a.2).bind (fun b =>
  (readU64 b.2).bind (fun c =>
  (readList readHandle c.1 c.2).bind (fun d =>
  (readU64 d.2).bind (fun e =>
  (readList readHandle e.1 e.2).map (fun f =>
  ({ sequence := b.1, left_edges := d.1, right_edges := f.1 }, f.2)))))))

/-- Path serialization (`HashGraph::path_t::serialize`): path id, name length
and bytes, the stored `count`, then every step's packed handle from head to
tail.  The stream is consistent only when `count` equals the true list
length — the invariant of C10. -/
def path_t.serialize (p : path_t) : List Nat :=
  encodeI64 p.path_id ++ encodeU64 p.name.length ++ catLists (p.name.map encodeChar)
  ++ encodeU64 p.count ++ catLists (p.steps.map (fun s => encodeI64 (handle_pack s.2)))

/-- Path deserialization (`HashGraph::path_t::deserialize`): reads the header,
resets `count` to zero, and rebuilds the list with `push_back` (which
increments `count` once per step); fresh uids model the `new` allocations. -/
def path_t.deserialize (uid0 : Nat) (l : List Nat) : Option (path_t × Nat × List Nat) :=
  (readI64 l).bind (fun a =>
  (readU64 a.2).bind (fun b =>
  (readList readChar b.1 b.2).bind (fun c =>
  (readU64 c.2).bind (fun d =>
  (readList readHandle d.1 d.2).map (fun e =>
  let pr := e.1.foldl
    (fun (acc : path_t × Nat) h => (acc.1.push_back acc.2 h, acc.2 + 1))
    ({ path_id := a.1, name := c.1, steps := [], count := 0 }, uid0)
  (pr.1, pr.2, e.2))))))

/-- Whole-graph serialization (`HashGraph::serialize`): max/min id bounds and
the path-id counter, then the node map (count, then id + record per node in
container order), then the path map (count, then each record). -/
def HashGraph.serialize (g : HashGraph) : List Nat :=
  encodeI64 g.max_id ++ encodeI64 g.min_id ++ encodeI64 g.next_path_id
  ++ encodeU64 g.graph.length
  ++ catLists (g.graph.map (fun kv => encodeI64 kv.1 ++ kv.2.serialize))
  ++ encodeU64 g.paths.length
  ++ catLists (g.paths.map (fun kv => kv.2.serialize))

/-- Read one node-map entry: id, then the record. -/
def readNodeEntry (l : List Nat) : Option ((Int × node_t) × List Nat) :=
  (readI64 l).bind (fun a =>
  (node_t.deserialize a.2).map (fun b => ((a.1, b.1), b.2)))

/-- Read `n` paths, threading the uid supply. -/
def readPaths : Nat → Nat → List Nat → Option (List path_t × Nat × List Nat)
  | uid, 0, l => some ([], uid, l)
  | uid, n + 1, l =>
    match path_t.deserialize uid l with
    | none => none
    | some (p, uid2, l2) =>
      match readPaths uid2 n l2 with
      | none => none
      | some (ps, uid3, l3) => some (p :: ps, uid3, l3)

/-- Rebuild the occurrence index by walking every path's steps in container
order (`HashGraph::deserialize`'s final loop: the index is derived, never read
from the stream). -/
def rebuildOccurrences (paths : List (Int × path_t)) : List (Int × List (Int × Nat)) :=
  paths.foldl
    (fun occ kv => kv.2.steps.foldl
      (fun occ2 s => bucketPush occ2 s.2.id (kv.2.path_id, s.1)) occ)
    []

/-- Whole-graph deserialization (`HashGraph::deserialize`): `clear()` then
read bounds and counters, the node map, the path map (registering each path's
name and id), and finally rebuild the occurrence index from the paths. -/
def HashGraph.deserialize (l : List Nat) : Option HashGraph :=
  (readI64 l).bind (fun a =>
  (readI64 a.2).bind (fun b =>
  (readI64 b.2).bind (fun c =>
  (readU64 c.2).bind (fun d =>
  (readList readNodeEntry d.1 d.2).bind (fun e =>
  (readU64 e.2).bind (fun f =>
  (readPaths 0 f.1 f.2).map (fun pr =>
  let graph := e.1.foldl (fun m kv => alist_set m kv.1 kv.2) []
  let pathIdMap := pr.1.foldl (fun m p => alist_set m p.name p.path_id) []
  let pathsMap := pr.1.foldl (fun m p => alist_set m p.path_id p) []
  { graph := graph,
    max_id := a.1,
    min_id := b.1,
    next_path_id := c.1,
    path_id := pathIdMap,
    paths := pathsMap,
    occurrences := rebuildOccurrences pathsMap,
    next_step_uid := pr.2.1 })))))))

theorem foldl_preserve {σ ι : Type} (P : σ → Prop) (f : σ → ι → σ) (l : List ι) (s0 : σ)
    (hstep : ∀ s x, x ∈ l → P s → P (f s x)) (h0 : P s0) : P (l.foldl f s0) := by
  induction l generalizing s0 with
  | nil => exact h0
  | cons x xs ih =>
    exact ih _ (fun s y hy hp => hstep s y (List.mem_cons_of_mem x hy) hp)
      (hstep s0 x (List.mem_cons_self x xs) h0)

theorem mem_alist_set {α β : Type} [DecidableEq α] (m : List (α × β)) (k : α) (v : β)
    (kv : α × β) (h : kv ∈ alist_set m k v) : kv = (k, v) ∨ kv ∈ m := by
  induction m with
  | nil => simpa [alist_set] using h
  | cons kv2 rest ih =>
    obtain ⟨k2, v2⟩ := kv2
    by_cases h2 : k2 = k
    · subst h2
      rcases List.mem_cons.mp (by simpa [alist_set] using h) with h3 | h3
      · left
        exact h3
      · right
        exact List.mem_cons_of_mem _ h3
    · rcases List.mem_cons.mp (by simpa [alist_set, h2] using h) with h3 | h3
      · right
        simp [h3]
      · rcases ih h3 with h4 | h4
        · left
          exact h4
        · right
          exact List.mem_cons_of_mem _ h4

theorem mem_of_alist_get? {α β : Type} [DecidableEq α] (m : List (α × β)) (k : α) (v : β)
    (h : alist_get? m k = some v) : (k, v) ∈ m := by
  induction m with
  | nil => simp [alist_get?] at h
  | cons kv rest ih =>
    obtain ⟨k2, v2⟩ := kv
    by_cases h2 : k2 = k
    · subst h2
      have h3 : v2 = v := by simpa [alist_get?] using h
      subst h3
      exact List.mem_cons_self _ _
    · simp only [alist_get?, if_neg h2] at h
      exact List.mem_cons_of_mem _ (ih h)

/-- The C10 invariant: every stored path's `count` field equals the length of
its step list (the number of records reachable from head to tail). -/
def counts_ok (g : HashGraph) : Prop := ∀ kv ∈ g.paths, kv.2.count = kv.2.steps.length

instance counts_ok_decidable (g : HashGraph) : Decidable (counts_ok g) :=
  inferInstanceAs (Decidable (∀ kv ∈ g.paths, kv.2.count = kv.2.steps.length))

theorem counts_ok_congr (g g2 : HashGraph) (h : g.paths = g2.paths) (hc : counts_ok g2) :
    counts_ok g := by
  unfold counts_ok
  rw [h]
  exact hc

theorem insertAfterUidGo_length (u : Nat) (e : Nat × handle_t) (l : List (Nat × handle_t)) :
    (insertAfterUidGo u e l).length = l.length + 1 := by
  induction l with
  | nil => rfl
  | cons s rest ih => by_cases h : s.1 = u <;> simp [insertAfterUidGo, h, ih]

theorem insertAfterUid_length (l : List (Nat × handle_t)) (after : Option Nat)
    (e : Nat × handle_t) : (insertAfterUid l after e).length = l.length + 1 := by
  cases after with
  | none => simp [insertAfterUid]
  | some u => exact insertAfterUidGo_length u e l

theorem counts_ok_alist_set (paths : List (Int × path_t)) (pid : Int) (p : path_t)
    (h : ∀ kv ∈ paths, kv.2.count = kv.2.steps.length) (hp : p.count = p.steps.length) :
    ∀ kv ∈ alist_set paths pid p, kv.2.count = kv.2.steps.length := by
  intro kv hkv
  rcases mem_alist_set _ _ _ _ hkv with h2 | h2
  · rw [h2]
    exact hp
  · exact h kv h2

theorem counts_ok_getD (g : HashGraph) (hc : counts_ok g) (pid : Int) :
    ((alist_get? g.paths pid).getD {}).count
      = ((alist_get? g.paths pid).getD {}).steps.length := by
  cases hg : alist_get? g.paths pid with
  | none => rfl
  | some p => simpa using hc (pid, p) (mem_of_alist_get? _ _ _ hg)

theorem counts_ok_insertRun (g : HashGraph) (pid : Int) (start : Option Nat)
    (hs : List handle_t) (hc : counts_ok g) : counts_ok (insertRun g pid start hs) := by
  unfold insertRun
  exact foldl_preserve (fun acc : HashGraph × Option Nat => counts_ok acc.1) _ hs (g, start)
    (fun s x _ hp => counts_ok_alist_set _ _ _ hp
      (by simp [path_t.insert_after, insertAfterUid_length, counts_ok_getD s.1 hp pid]))
    hc

theorem counts_ok_dividePathUpdate (g : HashGraph) (rv : List handle_t) (pe : Int × Nat)
    (hc : counts_ok g) : counts_ok (dividePathUpdate g rv pe) := by
  unfold dividePathUpdate
  dsimp only
  cases hfind : findStepIdx ((alist_get? g.paths pe.1).getD {}).steps pe.2 with
  | none => exact hc
  | some j =>
    dsimp only
    split
    · exact counts_ok_insertRun _ _ _ _ hc
    · exact counts_ok_insertRun _ _ _ _ hc

theorem paths_create_edge (g : HashGraph) (a b : handle_t) :
    (create_edge g a b).paths = g.paths := by
  unfold create_edge
  dsimp only
  split
  · split <;> rfl
  · split <;> split <;> rfl

/-- counts_ok is preserved by divide_handle: path records change only through
insert_after, which increments both the count and the list length. -/
theorem counts_ok_divide_handle (g : HashGraph) (h : handle_t) (offs : List Nat)
    (hc : counts_ok g) : counts_ok (divide_handle g h offs).1 := by
  unfold divide_handle
  dsimp only
  split
  · exact hc
  · split <;>
      · refine foldl_preserve counts_ok _ _ _
          (fun s pe _ hp => counts_ok_dividePathUpdate s _ pe hp) ?_
        refine foldl_preserve counts_ok _ _ _
          (fun s i _ hp => counts_ok_congr _ _ (paths_create_edge s _ _) hp) ?_
        refine foldl_preserve counts_ok _ _ _ (fun s x _ hp => hp) ?_
        exact foldl_preserve (fun acc : HashGraph × List handle_t => counts_ok acc.1) _ _ _
          (fun s i _ hp => hp) hc

theorem paths_destroy_path (g : HashGraph) (path : Int) :
    (destroy_path g path).paths = alist_erase g.paths path := by
  unfold destroy_path
  dsimp only
  congr 1
  exact foldl_preserve (fun s : HashGraph => s.paths = g.paths) _ _ _ (fun s x _ hp => hp) rfl

theorem counts_ok_destroy_path (g : HashGraph) (path : Int) (hc : counts_ok g) :
    counts_ok (destroy_path g path) := by
  intro kv hkv
  rw [paths_destroy_path] at hkv
  exact hc kv (List.mem_of_mem_filter hkv)

theorem push_back_fold_counts (hs : List handle_t) (p0 : path_t) (uid0 : Nat)
    (h0 : p0.count = p0.steps.length) :
    (hs.foldl (fun (acc : path_t × Nat) h => (acc.1.push_back acc.2 h, acc.2 + 1))
        (p0, uid0)).1.count
      = (hs.foldl (fun (acc : path_t × Nat) h => (acc.1.push_back acc.2 h, acc.2 + 1))
        (p0, uid0)).1.steps.length :=
  foldl_preserve (fun acc : path_t × Nat => acc.1.count = acc.1.steps.length) _ hs (p0, uid0)
    (fun s x _ hp => by simp [path_t.push_back, hp]) h0

theorem path_deserialize_counts (uid : Nat) (l : List Nat) (p : path_t) (uid2 : Nat)
    (l2 : List Nat) (h : path_t.deserialize uid l = some (p, uid2, l2)) :
    p.count = p.steps.length := by
  unfold path_t.deserialize at h
  cases ha : readI64 l with
  | none => simp [ha] at h
  | some a =>
    cases hb : readU64 a.2 with
    | none => simp [ha, hb] at h
    | some b =>
      cases hcr : readList readChar b.1 b.2 with
      | none => simp [ha, hb, hcr] at h
      | some c =>
        cases hd : readU64 c.2 with
        | none => simp [ha, hb, hcr, hd] at h
        | some d =>
          cases he : readList readHandle d.1 d.2 with
          | none => simp [ha, hb, hcr, hd, he] at h
          | some e =>
            simp only [ha, hb, hcr, hd, he, Option.bind, Option.map,
              Option.some.injEq, Prod.mk.injEq] at h
            rw [← h.1]
            exact push_back_fold_counts e.1 _ uid rfl
theorem readPaths_counts (n : Nat) (uid : Nat) (l : List Nat) (ps : List path_t)
    (uid2 : Nat) (l2 : List Nat) (h : readPaths uid n l = some (ps, uid2, l2)) :
    ∀ p ∈ ps, p.count = p.steps.length := by
  induction n generalizing uid l ps uid2 l2 with
  | zero =>
    simp only [readPaths, Option.some.injEq, Prod.mk.injEq] at h
    intro p hp
    rw [← h.1] at hp
    simp at hp
  | succ n ih =>
    unfold readPaths at h
    cases hp : path_t.deserialize uid l with
    | none => simp [hp] at h
    | some pr =>
      obtain ⟨p, uidp, lp⟩ := pr
      cases hr : readPaths uidp n lp with
      | none => simp [hp, hr] at h
      | some rr =>
        obtain ⟨ps2, uid3, l3⟩ := rr
        simp only [hp, hr, Option.some.injEq, Prod.mk.injEq] at h
        intro q hq
        rw [← h.1] at hq
        rcases List.mem_cons.mp hq with hq2 | hq2
        · rw [hq2]
          exact path_deserialize_counts uid l p uidp lp hp
        · exact ih uidp lp ps2 uid3 l3 hr q hq2

theorem counts_ok_deserialize (l : List Nat) (g2 : HashGraph)
    (h : HashGraph.deserialize l = some g2) : counts_ok g2 := by
  unfold HashGraph.deserialize at h
  cases ha : readI64 l with
  | none => simp [ha] at h
  | some a =>
    cases hb : readI64 a.2 with
    | none => simp [ha, hb] at h
    | some b =>
      cases hcr : readI64 b.2 with
      | none => simp [ha, hb, hcr] at h
      | some c =>
        cases hd : readU64 c.2 with
        | none => simp [ha, hb, hcr, hd] at h
        | some d =>
          cases he : readList readNodeEntry d.1 d.2 with
          | none => simp [ha, hb, hcr, hd, he] at h
          | some e =>
            cases hf : readU64 e.2 with
            | none => simp [ha, hb, hcr, hd, he, hf] at h
            | some f =>
              cases hg : readPaths 0 f.1 f.2 with
              | none => simp [ha, hb, hcr, hd, he, hf, hg] at h
              | some pr =>
                obtain ⟨ps, uidEnd, lrest⟩ := pr
                simp only [ha, hb, hcr, hd, he, hf, hg, Option.bind, Option.map,
                  Option.some.injEq] at h
                rw [← h]
                intro kv hkv
                refine foldl_preserve
                  (fun m : List (Int × path_t) =>
                    ∀ kv2 ∈ m, kv2.2.count = kv2.2.steps.length)
                  _ ps [] ?_ (by simp) kv hkv
                intro m p hp hP
                exact counts_ok_alist_set m p.path_id p hP
                  (readPaths_counts f.1 0 f.2 ps uidEnd lrest hg p hp)

/-- Path-bearing example graph: nodes 1 (T) and 2 (ATG) with an edge and a
reversing self-loop, and one path x = 1+, 2-. -/
def exampleGraphPath : HashGraph :=
  let a := (create_handle_with_id {} ['T'] 1).1
  let b := (create_handle_with_id a ['A', 'T', 'G'] 2).1
  let c := create_edge b ⟨1, false⟩ ⟨2, false⟩
  let c2 := create_edge c ⟨1, false⟩ (flip ⟨1, false⟩)
  let d := (create_path_handle c2 ['x']).1
  let d2 := (append_occurrence d 1 ⟨1, false⟩).1
  (append_occurrence d2 1 ⟨2, true⟩).1

/-- Claim C10: the stored step count returned by get_occurrence_count equals
the number of step records reachable by walking the path's list, and each of
create_path_handle, append_occurrence, divide_handle, destroy_path and
deserialize preserves (or establishes) this equality for every stored path. -/
theorem path_count_invariant (g : HashGraph) (name : List Char) (pid : Int)
    (h : handle_t) (offs : List Nat) (hc : counts_ok g) :
    (∀ pid2 : Int,
      get_occurrence_count g pid2 = ((alist_get? g.paths pid2).getD {}).steps.length)
    ∧ counts_ok (create_path_handle g name).1
    ∧ counts_ok (append_occurrence g pid h).1
    ∧ counts_ok (divide_handle g h offs).1
    ∧ counts_ok (destroy_path g pid)
    ∧ (∀ l g2, HashGraph.deserialize l = some g2 → counts_ok g2) := by
  refine ⟨?_, ?_, ?_, counts_ok_divide_handle g h offs hc,
    counts_ok_destroy_path g pid hc, fun l g2 hg2 => counts_ok_deserialize l g2 hg2⟩
  · intro pid2
    exact counts_ok_getD g hc pid2
  · exact counts_ok_alist_set _ _ _ hc (by simp)
  · exact counts_ok_alist_set _ _ _ hc
      (by simp [path_t.push_back, counts_ok_getD g hc pid])

/-- Witness for path_count_invariant on the concrete path-bearing graph. -/
theorem path_count_invariant_witness :
    counts_ok exampleGraphPath
    ∧ (∀ pid2 : Int,
        get_occurrence_count exampleGraphPath pid2
          = ((alist_get? exampleGraphPath.paths pid2).getD {}).steps.length)
    ∧ counts_ok (divide_handle exampleGraphPath ⟨2, false⟩ [1, 2]).1 :=
  ⟨by decide,
   (path_count_invariant exampleGraphPath ['y'] 1 ⟨2, false⟩ [1, 2] (by decide)).1,
   (path_count_invariant exampleGraphPath ['y'] 1 ⟨2, false⟩ [1, 2] (by decide)).2.2.2.1⟩

/-- Number of adjacency entries in `l` whose node id is `i`. -/
def idMatchCount (l : List handle_t) (i : Int) : Nat := l.countP (fun e => e.id == i)

/-- How many entries of the destroyed node's own lists target bucket (m, s):
entries `e` with node id `m` whose back-reference lives on side `s` of `m`
(the side `destroy_handle` searches, chosen by `e`'s orientation). -/
def sideTargetCount (E : List handle_t) (m : Int) (s : Side) : Nat :=
  E.countP (fun e => e.id == m && decide (bwd_side e = s))

/-- Count of entries referring to node `i` on one side of node `m`'s record. -/
def bucketCount (g : HashGraph) (m : Int) (s : Side) (i : Int) : Nat :=
  idMatchCount (node_side (getNode g m) s) i

theorem countP_swapRemoveFirst {α : Type} (p : α → Bool) (l : List α)
    (h : 0 < l.countP p) : (swapRemoveFirst p l).countP p = l.countP p - 1 := by
  induction l with
  | nil => simp at h
  | cons x xs ih =>
    by_cases hx : p x = true
    · cases xs with
      | nil => simp [swapRemoveFirst, hx, List.countP_cons]
      | cons y ys =>
        have hne : (y :: ys) ≠ ([] : List α) := by simp
        have hsplit : (y :: ys).dropLast ++ [(y :: ys).getLast hne] = y :: ys :=
          List.dropLast_append_getLast hne
        have hlastd : (y :: ys).getLastD y = (y :: ys).getLast hne := by
          rw [List.getLastD_eq_getLast?, List.getLast?_eq_getLast _ hne]
          rfl
        have e1 : swapRemoveFirst p (x :: y :: ys)
            = (y :: ys).getLastD y :: (y :: ys).dropLast := by
          simp [swapRemoveFirst, hx]
        have e3 : List.countP p (y :: ys)
            = List.countP p (y :: ys).dropLast + List.countP p [(y :: ys).getLast hne] := by
          conv_lhs => rw [← hsplit]
          rw [List.countP_append]
        rw [e1, hlastd, List.countP_cons]
        conv_rhs => rw [List.countP_cons, e3]
        simp only [List.countP_cons, List.countP_nil, hx, if_true]
        omega
    · have h2 : 0 < xs.countP p := by simpa [List.countP_cons, hx] using h
      have e1 : (swapRemoveFirst p (x :: xs)).countP p
          = (swapRemoveFirst p xs).countP p := by
        simp [swapRemoveFirst, hx, List.countP_cons]
      rw [e1, ih h2, List.countP_cons]
      simp [hx]

theorem node_side_set_side_self (nd : node_t) (s : Side) (l : List handle_t) :
    node_side (set_side nd s l) s = l := by
  cases s <;> rfl

theorem node_side_set_side_ne (nd : node_t) (s s2 : Side) (l : List handle_t)
    (h : s ≠ s2) : node_side (set_side nd s2 l) s = node_side nd s := by
  cases s <;> cases s2
  · exact absurd rfl h
  · rfl
  · rfl
  · exact absurd rfl h

theorem getNode_modifySide_self (g : HashGraph) (i : Int) (s : Side)
    (f : List handle_t → List handle_t) :
    getNode (modifySide g i s f) i = set_side (getNode g i) s (f (node_side (getNode g i) s)) :=
  getNode_modifyNode_self g i _

theorem getNode_modifySide_ne (g : HashGraph) (i j : Int) (s : Side)
    (f : List handle_t → List handle_t) (h : j ≠ i) :
    getNode (modifySide g i s f) j = getNode g j :=
  getNode_modifyNode_ne g i j _ h

/-- After folding destroy_handle's back-reference removal over the destroyed
node's entries, every bucket of every other node holds zero id-matching
entries, provided each bucket started with exactly as many matches as entries
targeting it (the reciprocity invariant of the data model). -/
theorem destroy_fold_zero (hid : Int) (E : List handle_t) :
    ∀ g2 : HashGraph,
      (∀ e ∈ E, e.id ≠ hid) →
      (∀ m s, m ≠ hid → bucketCount g2 m s hid = sideTargetCount E m s) →
      ∀ m s, m ≠ hid →
        bucketCount
          (E.foldl (fun gg next => modifySide gg next.id (bwd_side next)
            (swapRemoveFirst (fun bwd => bwd.id == hid))) g2) m s hid = 0 := by
  induction E with
  | nil =>
    intro g2 _ hinv m s hm
    simpa [sideTargetCount] using hinv m s hm
  | cons e E ih =>
    intro g2 hother hinv m s hm
    simp only [List.foldl_cons]
    refine ih _ (fun x hx => hother x (List.mem_cons_of_mem _ hx)) ?_ m s hm
    intro m2 s2 hm2
    by_cases hme : m2 = e.id
    · subst hme
      by_cases hse : s2 = bwd_side e
      · subst hse
        have h2 := hinv e.id (bwd_side e) hm2
        rw [bucketCount, idMatchCount] at h2
        have hpos : 0 < (node_side (getNode g2 e.id) (bwd_side e)).countP
            (fun bwd => bwd.id == hid) := by
          rw [h2, sideTargetCount, List.countP_cons]
          simp
        rw [bucketCount, getNode_modifySide_self, node_side_set_side_self, idMatchCount,
          countP_swapRemoveFirst _ _ hpos]
        rw [h2, sideTargetCount, sideTargetCount, List.countP_cons]
        simp
      · have hb : bucketCount (modifySide g2 e.id (bwd_side e)
            (swapRemoveFirst (fun bwd => bwd.id == hid))) e.id s2 hid
            = bucketCount g2 e.id s2 hid := by
          rw [bucketCount, bucketCount, getNode_modifySide_self,
            node_side_set_side_ne _ _ _ _ hse]
        have hse2 : ¬ bwd_side e = s2 := fun h3 => hse h3.symm
        have ht : sideTargetCount (e :: E) e.id s2 = sideTargetCount E e.id s2 := by
          rw [sideTargetCount, sideTargetCount, List.countP_cons]
          simp [hse2]
        rw [hb, hinv e.id s2 hm2, ht]
    · have hb : bucketCount (modifySide g2 e.id (bwd_side e)
          (swapRemoveFirst (fun bwd => bwd.id == hid))) m2 s2 hid
          = bucketCount g2 m2 s2 hid := by
        rw [bucketCount, bucketCount, getNode_modifySide_ne _ _ _ _ _ hme]
      have hme2 : ¬ e.id = m2 := fun h3 => hme h3.symm
      have ht : sideTargetCount (e :: E) m2 s2 = sideTargetCount E m2 s2 := by
        rw [sideTargetCount, sideTargetCount, List.countP_cons]
        simp [hme2]
      rw [hb, hinv m2 s2 hm2, ht]

/-- Claim C5: after destroy_handle on a live node all of whose edges lead to
other nodes (and with no live path step on it, the claim's precondition), no
adjacency list of any remaining node holds an entry with the destroyed id, and
the node record and its occurrence bucket are both removed.  The reciprocity
hypothesis is the data model's invariant: each side of every other node holds
exactly as many references to the destroyed node as the destroyed node's own
lists target it. -/
theorem destroy_handle_no_dangling (g : HashGraph) (h : handle_t)
    (hnd : (g.graph.map Prod.fst).Nodup)
    (hlive : has_node g h.id = true)
    (hsteps : (alist_get? g.occurrences h.id).getD [] = [])
    (hothers : ∀ e ∈ entriesOf g h.id, e.id ≠ h.id)
    (hdangle : ∀ e ∈ entriesOf g h.id, has_node g e.id = true)
    (hrecip : ∀ kv ∈ g.graph, kv.1 ≠ h.id →
      idMatchCount kv.2.left_edges h.id
          = sideTargetCount (entriesOf g h.id) kv.1 Side.left
      ∧ idMatchCount kv.2.right_edges h.id
          = sideTargetCount (entriesOf g h.id) kv.1 Side.right) :
    (∀ kv ∈ (destroy_handle g h).graph,
        ∀ e ∈ kv.2.left_edges ++ kv.2.right_edges, e.id ≠ h.id)
    ∧ alist_get? (destroy_handle g h).graph h.id = none
    ∧ alist_get? (destroy_handle g h).occurrences h.id = none := by
  have hinv0 : ∀ m s, m ≠ h.id →
      bucketCount g m s h.id = sideTargetCount (entriesOf g h.id) m s := by
    intro m s hm
    cases hg : alist_get? g.graph m with
    | some nd =>
      have hmem := mem_of_alist_get? g.graph m nd hg
      have hr := hrecip (m, nd) hmem hm
      have hgn : getNode g m = nd := by simp [getNode, hg]
      cases s with
      | left =>
        rw [bucketCount, hgn]
        exact hr.1
      | right =>
        rw [bucketCount, hgn]
        exact hr.2
    | none =>
      have hgn : getNode g m = {} := by simp [getNode, hg]
      have hb0 : bucketCount g m s h.id = 0 := by
        rw [bucketCount, hgn]
        cases s <;> rfl
      rw [hb0]
      symm
      rw [sideTargetCount, List.countP_eq_zero]
      intro e he
      by_cases hem : e.id = m
      · exfalso
        have h2 := hdangle e he
        rw [has_node, hem, hg] at h2
        simp at h2
      · simp [hem]
  have hzero := destroy_fold_zero h.id (entriesOf g h.id) g hothers hinv0
  have hndup1 : (((entriesOf g h.id).foldl
      (fun g2 next => modifySide g2 next.id (bwd_side next)
        (swapRemoveFirst (fun bwd => bwd.id == h.id))) g).graph.map Prod.fst).Nodup :=
    foldl_preserve (fun st : HashGraph => (st.graph.map Prod.fst).Nodup) _ _ g
      (fun st x _ hp => alist_nodup_set _ _ _ hp) hnd
  refine ⟨?_, ?_, ?_⟩
  · intro kv hkv e he
    have hkv2 : kv ∈ alist_erase (((entriesOf g h.id).foldl
        (fun g2 next => modifySide g2 next.id (bwd_side next)
          (swapRemoveFirst (fun bwd => bwd.id == h.id))) g).graph) h.id := hkv
    have hkv1 := List.mem_of_mem_filter hkv2
    have hkne : kv.1 ≠ h.id := by
      have h3 := (List.mem_filter.mp hkv2).2
      simpa using h3
    have hget := alist_get?_eq_some_of_mem _ kv hndup1 hkv1
    have hgn : getNode ((entriesOf g h.id).foldl
        (fun g2 next => modifySide g2 next.id (bwd_side next)
          (swapRemoveFirst (fun bwd => bwd.id == h.id))) g) kv.1 = kv.2 := by
      rw [getNode, hget]
      rfl
    rcases List.mem_append.mp he with he2 | he2
    · have hz := hzero kv.1 Side.left hkne
      rw [bucketCount, hgn] at hz
      rw [idMatchCount, List.countP_eq_zero] at hz
      simpa using hz e he2
    · have hz := hzero kv.1 Side.right hkne
      rw [bucketCount, hgn] at hz
      rw [idMatchCount, List.countP_eq_zero] at hz
      simpa using hz e he2
  · exact alist_get?_erase_self _ _
  · exact alist_get?_erase_self _ _

/-- Three nodes: 2 in the middle with edges to 1 and 3 on both sides, built
with create_handle and create_edge. -/
def exampleGraphC5 : HashGraph :=
  let a := (create_handle_with_id {} ['A'] 1).1
  let b := (create_handle_with_id a ['C'] 2).1
  let c := (create_handle_with_id b ['G'] 3).1
  let d := create_edge c ⟨1, false⟩ ⟨2, false⟩
  create_edge d ⟨2, false⟩ ⟨3, true⟩

/-- Witness for destroy_handle_no_dangling: destroying node 2 of the chain
leaves nodes 1 and 3 with no entry mentioning id 2, and removes node 2's
record and bucket. -/
theorem destroy_handle_no_dangling_witness :
    (exampleGraphC5.graph.map Prod.fst).Nodup
    ∧ (∀ kv ∈ (destroy_handle exampleGraphC5 ⟨2, false⟩).graph,
        ∀ e ∈ kv.2.left_edges ++ kv.2.right_edges, e.id ≠ 2)
    ∧ alist_get? (destroy_handle exampleGraphC5 ⟨2, false⟩).graph 2 = none
    ∧ alist_get? (destroy_handle exampleGraphC5 ⟨2, false⟩).occurrences 2 = none :=
  ⟨by decide,
   (destroy_handle_no_dangling exampleGraphC5 ⟨2, false⟩ (by decide) (by decide) (by decide)
      (by decide) (by decide) (by decide)).1,
   (destroy_handle_no_dangling exampleGraphC5 ⟨2, false⟩ (by decide) (by decide) (by decide)
      (by decide) (by decide) (by decide)).2.1,
   (destroy_handle_no_dangling exampleGraphC5 ⟨2, false⟩ (by decide) (by decide) (by decide)
      (by decide) (by decide) (by decide)).2.2⟩

/-- A value representable as a signed 64-bit integer. -/
def intOK (v : Int) : Prop := -(2 ^ 63) ≤ v ∧ v < 2 ^ 63

/-- A handle whose packed form is a nonnegative signed 64-bit integer, as the
engine produces (node ids are positive). -/
def handleOK (h : handle_t) : Prop := 0 ≤ h.id ∧ 2 * h.id + 1 < 2 ^ 63

/-- A node record whose sizes fit the 64-bit stream fields and whose content
is byte-representable. -/
def nodeOK (nd : node_t) : Prop :=
  nd.sequence.length < 2 ^ 64 ∧ (∀ c ∈ nd.sequence, c.toNat < 256)
  ∧ nd.left_edges.length < 2 ^ 64 ∧ (∀ e ∈ nd.left_edges, handleOK e)
  ∧ nd.right_edges.length < 2 ^ 64 ∧ (∀ e ∈ nd.right_edges, handleOK e)

/-- A path record whose sizes fit the stream fields, whose stored count is
truthful (C10's invariant, required for the stream to parse), and whose
handles pack into signed 64-bit integers. -/
def pathOK (p : path_t) : Prop :=
  intOK p.path_id ∧ p.name.length < 2 ^ 64 ∧ (∀ c ∈ p.name, c.toNat < 256)
  ∧ p.count = p.steps.length ∧ p.count < 2 ^ 64 ∧ ∀ s ∈ p.steps, handleOK s.2

/-- A machine-representable graph state: what every state reachable through
the public operations on real 64-bit hardware satisfies. -/
def graphOK (g : HashGraph) : Prop :=
  intOK g.max_id ∧ intOK g.min_id ∧ intOK g.next_path_id
  ∧ g.graph.length < 2 ^ 64 ∧ (g.graph.map Prod.fst).Nodup
  ∧ (∀ kv ∈ g.graph, intOK kv.1 ∧ nodeOK kv.2)
  ∧ g.paths.length < 2 ^ 64 ∧ (g.paths.map Prod.fst).Nodup
  ∧ ∀ kv ∈ g.paths, kv.2.path_id = kv.1 ∧ pathOK kv.2

instance intOK_decidable (v : Int) : Decidable (intOK v) :=
  inferInstanceAs (Decidable (-(2 ^ 63) ≤ v ∧ v < 2 ^ 63))

instance handleOK_decidable (h : handle_t) : Decidable (handleOK h) :=
  inferInstanceAs (Decidable (0 ≤ h.id ∧ 2 * h.id + 1 < 2 ^ 63))

instance nodeOK_decidable (nd : node_t) : Decidable (nodeOK nd) :=
  inferInstanceAs (Decidable (nd.sequence.length < 2 ^ 64 ∧ (∀ c ∈ nd.sequence, c.toNat < 256)
    ∧ nd.left_edges.length < 2 ^ 64 ∧ (∀ e ∈ nd.left_edges, handleOK e)
    ∧ nd.right_edges.length < 2 ^ 64 ∧ (∀ e ∈ nd.right_edges, handleOK e)))

instance pathOK_decidable (p : path_t) : Decidable (pathOK p) :=
  inferInstanceAs (Decidable (intOK p.path_id ∧ p.name.length < 2 ^ 64
    ∧ (∀ c ∈ p.name, c.toNat < 256)
    ∧ p.count = p.steps.length ∧ p.count < 2 ^ 64 ∧ ∀ s ∈ p.steps, handleOK s.2))

instance graphOK_decidable (g : HashGraph) : Decidable (graphOK g) :=
  inferInstanceAs (Decidable (intOK g.max_id ∧ intOK g.min_id ∧ intOK g.next_path_id
    ∧ g.graph.length < 2 ^ 64 ∧ (g.graph.map Prod.fst).Nodup
    ∧ (∀ kv ∈ g.graph, intOK kv.1 ∧ nodeOK kv.2)
    ∧ g.paths.length < 2 ^ 64 ∧ (g.paths.map Prod.fst).Nodup
    ∧ ∀ kv ∈ g.paths, kv.2.path_id = kv.1 ∧ pathOK kv.2))

theorem readU64_append (n : Nat) (r : List Nat) (h : n < 2 ^ 64) :
    readU64 (encodeU64 n ++ r) = some (n, r) := by
  simp [encodeU64, readU64]
  omega

theorem readI64_append (v : Int) (r : List Nat) (h1 : -(2 ^ 63) ≤ v) (h2 : v < 2 ^ 63) :
    readI64 (encodeI64 v ++ r) = some (v, r) := by
  have h0 : (0 : Int) ≤ v % 2 ^ 64 := Int.emod_nonneg v (by norm_num)
  have h3 : v % 2 ^ 64 < 2 ^ 64 := Int.emod_lt_of_pos v (by norm_num)
  have hlt : (v % 2 ^ 64).toNat < 2 ^ 64 := by omega
  rw [readI64, encodeI64, readU64_append _ _ hlt, Option.map_some']
  have hval :
      (if (v % 2 ^ 64).toNat < 2 ^ 63 then (((v % 2 ^ 64).toNat : Nat) : Int)
       else (((v % 2 ^ 64).toNat : Nat) : Int) - 2 ^ 64) = v := by
    split_ifs with hc <;> omega
  rw [hval]

theorem readChar_append (c : Char) (r : List Nat) :
    readChar (encodeChar c ++ r) = some (c, r) := by
  simp [encodeChar, readChar, Char.ofNat_toNat]

theorem handle_unpack_pack (h : handle_t) (hid : 0 ≤ h.id) :
    handle_unpack (handle_pack h) = h := by
  obtain ⟨i, r⟩ := h
  cases r
  · have e1 : handle_pack ⟨i, false⟩ = 2 * i := by simp [handle_pack]
    have e2 : (2 * i) / 2 = i := by omega
    have e3 : (2 * i) % 2 = 0 := by omega
    simp [handle_unpack, e1, e2, e3]
  · have e1 : handle_pack ⟨i, true⟩ = 2 * i + 1 := by simp [handle_pack]
    have e2 : (2 * i + 1) / 2 = i := by omega
    have e3 : (2 * i + 1) % 2 = 1 := by omega
    simp [handle_unpack, e1, e2, e3]

theorem readHandle_append (h : handle_t) (r : List Nat) (hok : handleOK h) :
    readHandle (encodeI64 (handle_pack h) ++ r) = some (h, r) := by
  have h1 : -(2 ^ 63) ≤ handle_pack h := by
    rcases hok with ⟨ha, hb⟩
    unfold handle_pack
    split_ifs <;> omega
  have h2 : handle_pack h < 2 ^ 63 := by
    rcases hok with ⟨ha, hb⟩
    unfold handle_pack
    split_ifs <;> omega
  rw [readHandle, readI64_append _ _ h1 h2, Option.map_some',
    handle_unpack_pack h hok.1]

theorem readList_append {α : Type} (read1 : List Nat → Option (α × List Nat))
    (enc : α → List Nat) (P : α → Prop)
    (hgood : ∀ x r, P x → read1 (enc x ++ r) = some (x, r)) :
    ∀ (l : List α) (r : List Nat), (∀ x ∈ l, P x) →
      readList read1 l.length (catLists (l.map enc) ++ r) = some (l, r) := by
  intro l
  induction l with
  | nil =>
    intro r _
    simp [readList, catLists]
  | cons x xs ih =>
    intro r hall
    have e1 : catLists ((x :: xs).map enc) ++ r = enc x ++ (catLists (xs.map enc) ++ r) := by
      simp [catLists]
    rw [List.length_cons, e1]
    simp only [readList]
    rw [hgood x _ (hall x (by simp))]
    dsimp only
    rw [ih r (fun y hy => hall y (List.mem_cons_of_mem _ hy))]

theorem node_round_trip (nd : node_t) (r : List Nat) (h : nodeOK nd) :
    node_t.deserialize (node_t.serialize nd ++ r) = some (nd, r) := by
  obtain ⟨h1, h2, h3, h4, h5, h6⟩ := h
  rw [node_t.serialize, node_t.deserialize]
  simp only [List.append_assoc]
  rw [readU64_append _ _ h1]
  dsimp only [Option.bind]
  rw [readList_append readChar encodeChar (fun _ => True)
    (fun x r2 _ => readChar_append x r2) nd.sequence _ (fun x _ => trivial)]
  dsimp only [Option.bind]
  rw [readU64_append _ _ h3]
  dsimp only [Option.bind]
  rw [readList_append readHandle (fun e => encodeI64 (handle_pack e)) handleOK
    (fun x r2 hx => readHandle_append x r2 hx) nd.left_edges _ h4]
  dsimp only [Option.bind]
  rw [readU64_append _ _ h5]
  dsimp only [Option.bind]
  rw [readList_append readHandle (fun e => encodeI64 (handle_pack e)) handleOK
    (fun x r2 hx => readHandle_append x r2 hx) nd.right_edges _ h6]
  rfl

theorem push_back_fold_spec (hs : List handle_t) :
    ∀ (p0 : path_t) (uid0 : Nat),
      (hs.foldl (fun (acc : path_t × Nat) h2 => (acc.1.push_back acc.2 h2, acc.2 + 1))
          (p0, uid0)).1.path_id = p0.path_id
      ∧ (hs.foldl (fun (acc : path_t × Nat) h2 => (acc.1.push_back acc.2 h2, acc.2 + 1))
          (p0, uid0)).1.name = p0.name
      ∧ (hs.foldl (fun (acc : path_t × Nat) h2 => (acc.1.push_back acc.2 h2, acc.2 + 1))
          (p0, uid0)).1.steps.map Prod.snd = p0.steps.map Prod.snd ++ hs
      ∧ (hs.foldl (fun (acc : path_t × Nat) h2 => (acc.1.push_back acc.2 h2, acc.2 + 1))
          (p0, uid0)).1.count = p0.count + hs.length := by
  induction hs with
  | nil =>
    intro p0 uid0
    simp
  | cons x xs ih =>
    intro p0 uid0
    simp only [List.foldl_cons]
    obtain ⟨i1, i2, i3, i4⟩ := ih (p0.push_back uid0 x) (uid0 + 1)
    refine ⟨?_, ?_, ?_, ?_⟩
    · rw [i1]
      rfl
    · rw [i2]
      rfl
    · rw [i3]
      simp [path_t.push_back]
    · rw [i4]
      simp only [path_t.push_back, List.length_cons]
      omega

theorem path_round_trip (p : path_t) (uid0 : Nat) (r : List Nat) (h : pathOK p) :
    ∃ q uid2, path_t.deserialize uid0 (path_t.serialize p ++ r) = some (q, uid2, r)
      ∧ q.path_id = p.path_id ∧ q.name = p.name
      ∧ q.steps.map Prod.snd = p.steps.map Prod.snd ∧ q.count = p.count := by
  obtain ⟨h1, h2, h3, h4, h5, h6⟩ := h
  rw [path_t.serialize, path_t.deserialize]
  simp only [List.append_assoc]
  rw [readI64_append _ _ h1.1 h1.2]
  dsimp only [Option.bind]
  rw [readU64_append _ _ h2]
  dsimp only [Option.bind]
  rw [readList_append readChar encodeChar (fun _ => True)
    (fun x r2 _ => readChar_append x r2) p.name _ (fun x _ => trivial)]
  dsimp only [Option.bind]
  rw [readU64_append _ _ h5]
  dsimp only [Option.bind]
  have hmap : p.steps.map (fun s => encodeI64 (handle_pack s.2))
      = (p.steps.map Prod.snd).map (fun e => encodeI64 (handle_pack e)) := by
    rw [List.map_map]
    rfl
  have hlen : p.count = (p.steps.map Prod.snd).length := by simp [h4]
  rw [hmap, hlen]
  rw [readList_append readHandle (fun e => encodeI64 (handle_pack e)) handleOK
    (fun x r2 hx => readHandle_append x r2 hx) (p.steps.map Prod.snd) _ ?_]
  · dsimp only [Option.map]
    obtain ⟨i1, i2, i3, i4⟩ := push_back_fold_spec (p.steps.map Prod.snd)
      { path_id := p.path_id, name := p.name, steps := [], count := 0 } uid0
    refine ⟨_, _, rfl, ?_, ?_, ?_, ?_⟩
    · simpa using i1
    · simpa using i2
    · simpa using i3
    · rw [i4]
      simp [h4]
  · intro x hx
    obtain ⟨s, hs, hx2⟩ := List.mem_map.mp hx
    rw [← hx2]
    exact h6 s hs

theorem readPaths_append (l : List path_t) :
    ∀ (uid0 : Nat) (r : List Nat), (∀ p ∈ l, pathOK p) →
      ∃ ps uidEnd, readPaths uid0 l.length (catLists (l.map path_t.serialize) ++ r)
          = some (ps, uidEnd, r)
        ∧ ps.map (fun q => (q.path_id, q.name, q.steps.map Prod.snd, q.count))
          = l.map (fun q => (q.path_id, q.name, q.steps.map Prod.snd, q.count)) := by
  induction l with
  | nil =>
    intro uid0 r _
    exact ⟨[], uid0, by simp [readPaths, catLists], rfl⟩
  | cons p l ih =>
    intro uid0 r hall
    obtain ⟨q, uid2, hq, e1, e2, e3, e4⟩ :=
      path_round_trip p uid0 (catLists (l.map path_t.serialize) ++ r) (hall p (by simp))
    obtain ⟨ps, uidEnd, hps, hproj⟩ := ih uid2 r (fun x hx => hall x (List.mem_cons_of_mem _ hx))
    refine ⟨q :: ps, uidEnd, ?_, ?_⟩
    · have e0 : catLists ((p :: l).map path_t.serialize) ++ r
          = path_t.serialize p ++ (catLists (l.map path_t.serialize) ++ r) := by
        simp [catLists]
      rw [List.length_cons, e0]
      simp only [readPaths]
      rw [hq]
      dsimp only
      rw [hps]
    · simp [e1, e2, e3, e4, hproj]

theorem alist_set_append_of_not_mem {α β : Type} [DecidableEq α] (m : List (α × β))
    (k : α) (v : β) (h : k ∉ m.map Prod.fst) : alist_set m k v = m ++ [(k, v)] := by
  induction m with
  | nil => rfl
  | cons kv rest ih =>
    obtain ⟨k2, v2⟩ := kv
    simp only [List.map_cons, List.mem_cons] at h
    push_neg at h
    have h1 : ¬ k2 = k := fun he => h.1 he.symm
    simp [alist_set, h1, ih h.2]

theorem foldl_alist_set_pairs {α β : Type} [DecidableEq α] (l : List (α × β)) :
    ∀ acc : List (α × β), ((acc ++ l).map Prod.fst).Nodup →
      l.foldl (fun m kv => alist_set m kv.1 kv.2) acc = acc ++ l := by
  induction l with
  | nil =>
    intro acc _
    simp
  | cons kv l ih =>
    intro acc hnd
    have hk : kv.1 ∉ acc.map Prod.fst := by
      intro hmem
      rw [List.map_append, List.nodup_append] at hnd
      exact hnd.2.2 hmem (by simp)
    simp only [List.foldl_cons]
    rw [alist_set_append_of_not_mem _ _ _ hk]
    rw [ih (acc ++ [kv]) (by simpa using hnd)]
    simp

theorem foldl_alist_set_keyed (l : List path_t) (acc : List (Int × path_t))
    (hnd : ((acc ++ l.map (fun p => (p.path_id, p))).map Prod.fst).Nodup) :
    l.foldl (fun m p => alist_set m p.path_id p) acc
      = acc ++ l.map (fun p => (p.path_id, p)) := by
  have e1 : l.foldl (fun m p => alist_set m p.path_id p) acc
      = (l.map (fun p => (p.path_id, p))).foldl (fun m kv => alist_set m kv.1 kv.2) acc := by
    rw [List.foldl_map]
  rw [e1]
  exact foldl_alist_set_pairs _ acc hnd

theorem bucket_mem_push_self (occ : List (Int × List (Int × Nat))) (i : Int)
    (e : Int × Nat) : e ∈ (alist_get? (bucketPush occ i e) i).getD [] := by
  rw [bucketPush]
  simp

theorem bucket_mem_push_mono (occ : List (Int × List (Int × Nat))) (i j : Int)
    (e e2 : Int × Nat) (h : e ∈ (alist_get? occ i).getD []) :
    e ∈ (alist_get? (bucketPush occ j e2) i).getD [] := by
  by_cases hij : i = j
  · subst hij
    rw [bucketPush]
    simp only [alist_get?_set_self, Option.getD_some]
    exact List.mem_append_left _ h
  · rw [bucketPush, alist_get?_set_ne _ _ _ _ hij]
    exact h

theorem stepsFold_mono (pid : Int) (steps : List (Nat × handle_t)) :
    ∀ (occ : List (Int × List (Int × Nat))) (i : Int) (e : Int × Nat),
      e ∈ (alist_get? occ i).getD [] →
      e ∈ (alist_get? (steps.foldl
          (fun o s2 => bucketPush o s2.2.id (pid, s2.1)) occ) i).getD [] := by
  induction steps with
  | nil =>
    intro occ i e h
    exact h
  | cons st steps ih =>
    intro occ i e h
    exact ih _ _ _ (bucket_mem_push_mono _ _ _ _ _ h)

theorem stepsFold_mem (pid : Int) (steps : List (Nat × handle_t)) :
    ∀ (occ : List (Int × List (Int × Nat))), ∀ s ∈ steps,
      (pid, s.1) ∈ (alist_get? (steps.foldl
          (fun o s2 => bucketPush o s2.2.id (pid, s2.1)) occ) s.2.id).getD [] := by
  induction steps with
  | nil =>
    intro occ s hs
    simp at hs
  | cons st steps ih =>
    intro occ s hs
    rcases List.mem_cons.mp hs with h2 | h2
    · subst h2
      simp only [List.foldl_cons]
      exact stepsFold_mono pid steps _ _ _ (bucket_mem_push_self occ _ _)
    · simp only [List.foldl_cons]
      exact ih _ s h2

theorem pathsFold_mono (paths : List (Int × path_t)) :
    ∀ (occ : List (Int × List (Int × Nat))) (i : Int) (e : Int × Nat),
      e ∈ (alist_get? occ i).getD [] →
      e ∈ (alist_get? (paths.foldl
          (fun o kv => kv.2.steps.foldl
            (fun o2 s => bucketPush o2 s.2.id (kv.2.path_id, s.1)) o) occ) i).getD [] := by
  induction paths with
  | nil =>
    intro occ i e h
    exact h
  | cons kv paths ih =>
    intro occ i e h
    exact ih _ _ _ (stepsFold_mono _ _ _ _ _ h)

/-- Every step of every stored path lands in the occurrence bucket keyed by
the node id of its handle when the index is rebuilt. -/
theorem rebuild_mem (paths : List (Int × path_t)) :
    ∀ kv ∈ paths, ∀ s ∈ kv.2.steps,
      (kv.2.path_id, s.1) ∈ (alist_get? (rebuildOccurrences paths) s.2.id).getD [] := by
  rw [rebuildOccurrences]
  suffices hgen : ∀ (occ : List (Int × List (Int × Nat))), ∀ kv ∈ paths, ∀ s ∈ kv.2.steps,
      (kv.2.path_id, s.1) ∈ (alist_get? (paths.foldl
        (fun o kv2 => kv2.2.steps.foldl
          (fun o2 s2 => bucketPush o2 s2.2.id (kv2.2.path_id, s2.1)) o) occ) s.2.id).getD []
    from hgen []
  induction paths with
  | nil =>
    intro occ kv hkv
    simp at hkv
  | cons kv0 paths ih =>
    intro occ kv hkv s hs
    rcases List.mem_cons.mp hkv with h2 | h2
    · subst h2
      simp only [List.foldl_cons]
      exact pathsFold_mono paths _ _ _ (stepsFold_mem _ _ occ s hs)
    · simp only [List.foldl_cons]
      exact ih _ kv h2 s hs

/-- Claim C3: for every machine-representable graph state (in particular every
state reachable by the public operations on 64-bit hardware, with C10's count
invariant), deserializing the serialized stream succeeds and yields a graph
with the same max/min id bounds, literally the same node map (same ids,
sequences, and left and right adjacency lists), the same paths (id, name,
and step handles in traversal order), and an occurrence index — rebuilt from
the paths, not read from the stream — in which every step of every path
appears in the bucket keyed by the node id of its handle. -/
theorem serialize_deserialize_round_trip (g : HashGraph) (hok : graphOK g) :
    ∃ g2, HashGraph.deserialize (HashGraph.serialize g) = some g2
      ∧ g2.max_id = g.max_id ∧ g2.min_id = g.min_id
      ∧ g2.graph = g.graph
      ∧ g2.paths.map (fun kv =>
            (kv.1, kv.2.path_id, kv.2.name, kv.2.steps.map Prod.snd, kv.2.count))
        = g.paths.map (fun kv =>
            (kv.1, kv.2.path_id, kv.2.name, kv.2.steps.map Prod.snd, kv.2.count))
      ∧ ∀ kv ∈ g2.paths, ∀ s ∈ kv.2.steps,
          (kv.2.path_id, s.1) ∈ (alist_get? g2.occurrences s.2.id).getD [] := by
  obtain ⟨hmax, hmin, hnpid, hglen, hgnd, hgnodes, hplen, hpnd, hpaths⟩ := hok
  rw [HashGraph.serialize, HashGraph.deserialize]
  simp only [List.append_assoc]
  rw [readI64_append _ _ hmax.1 hmax.2]
  dsimp only [Option.bind]
  rw [readI64_append _ _ hmin.1 hmin.2]
  dsimp only [Option.bind]
  rw [readI64_append _ _ hnpid.1 hnpid.2]
  dsimp only [Option.bind]
  rw [readU64_append _ _ hglen]
  dsimp only [Option.bind]
  rw [readList_append readNodeEntry (fun kv => encodeI64 kv.1 ++ kv.2.serialize)
    (fun kv => intOK kv.1 ∧ nodeOK kv.2) ?_ g.graph _ hgnodes]
  · dsimp only [Option.bind]
    rw [readU64_append _ _ hplen]
    dsimp only [Option.bind]
    have hmapser : g.paths.map (fun kv => kv.2.serialize)
        = (g.paths.map Prod.snd).map path_t.serialize := by
      rw [List.map_map]
      rfl
    have hlen2 : g.paths.length = (g.paths.map Prod.snd).length := by simp
    rw [hmapser, hlen2]
    obtain ⟨ps, uidEnd, hps, hproj⟩ := readPaths_append (g.paths.map Prod.snd) 0 []
      (fun p hp => by
        obtain ⟨kv, hkv, hkv2⟩ := List.mem_map.mp hp
        rw [← hkv2]
        exact (hpaths kv hkv).2)
    have hps2 : readPaths 0 (List.map Prod.snd g.paths).length
        (catLists (List.map path_t.serialize (List.map Prod.snd g.paths)))
        = some (ps, uidEnd, []) := by
      simpa using hps
    rw [hps2]
    dsimp only [Option.map]
    have hpid_eq : ps.map path_t.path_id = g.paths.map Prod.fst := by
      have h1 := congrArg (List.map (fun t : Int × List Char × List handle_t × Nat => t.1)) hproj
      simp only [List.map_map] at h1
      have e1 : ps.map path_t.path_id
          = ps.map ((fun t : Int × List Char × List handle_t × Nat => t.1)
              ∘ (fun q : path_t => (q.path_id, q.name, q.steps.map Prod.snd, q.count))) :=
        List.map_congr_left (fun q _ => rfl)
      rw [e1, h1]
      exact List.map_congr_left (fun kv hkv => (hpaths kv hkv).1)
    have hsetg : g.graph.foldl (fun m kv => alist_set m kv.1 kv.2) ([] : List (Int × node_t))
        = g.graph := by
      have := foldl_alist_set_pairs g.graph [] (by simpa using hgnd)
      simpa using this
    have hsetp : ps.foldl (fun m p => alist_set m p.path_id p) ([] : List (Int × path_t))
        = ps.map (fun p => (p.path_id, p)) := by
      have := foldl_alist_set_keyed ps [] (by
        simp only [List.nil_append, List.map_map]
        have e2 : ps.map (Prod.fst ∘ fun p => (p.path_id, p)) = ps.map path_t.path_id := rfl
        rw [e2, hpid_eq]
        exact hpnd)
      simpa using this
    refine ⟨_, rfl, rfl, rfl, ?_, ?_, ?_⟩
    · dsimp only
      rw [hsetg]
    · dsimp only
      rw [hsetp, List.map_map]
      have h5 := congrArg (List.map (fun t : Int × List Char × List handle_t × Nat =>
        (t.1, t.1, t.2.1, t.2.2.1, t.2.2.2))) hproj
      simp only [List.map_map] at h5
      have e3 : ps.map ((fun kv : Int × path_t =>
            (kv.1, kv.2.path_id, kv.2.name, kv.2.steps.map Prod.snd, kv.2.count))
           ∘ (fun p : path_t => (p.path_id, p)))
          = ps.map ((fun t : Int × List Char × List handle_t × Nat =>
              (t.1, t.1, t.2.1, t.2.2.1, t.2.2.2))
            ∘ (fun q : path_t => (q.path_id, q.name, q.steps.map Prod.snd, q.count))) :=
        List.map_congr_left (fun q _ => rfl)
      rw [e3, h5]
      refine List.map_congr_left (fun kv hkv => ?_)
      have h4 := (hpaths kv hkv).1
      simp only [Function.comp]
      rw [h4]
    · dsimp only
      intro kv hkv s hs
      rw [hsetp] at hkv ⊢
      exact rebuild_mem _ kv hkv s hs
  · intro kv r2 hkv
    rw [List.append_assoc, readNodeEntry, readI64_append _ _ hkv.1.1 hkv.1.2]
    dsimp only [Option.bind]
    rw [node_round_trip _ _ hkv.2]
    rfl

/-- Witness for serialize_deserialize_round_trip on the concrete path-bearing
graph. -/
theorem serialize_deserialize_round_trip_witness :
    graphOK exampleGraphPath
    ∧ ∃ g2, HashGraph.deserialize (HashGraph.serialize exampleGraphPath) = some g2
        ∧ g2.max_id = exampleGraphPath.max_id ∧ g2.min_id = exampleGraphPath.min_id
        ∧ g2.graph = exampleGraphPath.graph
        ∧ g2.paths.map (fun kv =>
              (kv.1, kv.2.path_id, kv.2.name, kv.2.steps.map Prod.snd, kv.2.count))
          = exampleGraphPath.paths.map (fun kv =>
              (kv.1, kv.2.path_id, kv.2.name, kv.2.steps.map Prod.snd, kv.2.count))
        ∧ ∀ kv ∈ g2.paths, ∀ s ∈ kv.2.steps,
            (kv.2.path_id, s.1) ∈ (alist_get? g2.occurrences s.2.id).getD [] :=
  ⟨by decide, serialize_deserialize_round_trip exampleGraphPath (by decide)⟩

end vg
